import Mathlib

/-
Verification of the maximum-clique solvers of this repository:
the CliSAT-style exact branch-and-bound solver (src/algorithms/clisat_exact.py),
the GRASP metaheuristic (src/algorithms/grasp_heuristic.py) and the shared
clique validators (src/data/graph_utils.py, src/algorithms/algorithm_interface.py).

The Python code is shallowly embedded: NetworkX graphs become a node list
(in insertion order, which is the iteration order NetworkX exposes) plus a
Boolean adjacency function; Python floats that only ever get compared
(neighborhood densities, RCL thresholds) become exact rationals; the SAT
solver, the wall clock and the id-keyed coloring cache become oracle
functions, so that theorems quantify over every possible outcome; Python
exceptions become Except values threaded through the call chain.
Python list.sort is stable, and is embedded as a stable insertion sort.
-/

namespace MCP

/-- A graph as the core consumes it: nodes in insertion order plus an
adjacency test.  Mirrors an immutable NetworkX graph. -/
structure Graph where
  nodes : List Nat
  adj : Nat → Nat → Bool

/-- Adjacency is symmetric, as in every undirected NetworkX graph. -/
def Graph.Sym (G : Graph) : Prop := ∀ u v, G.adj u v = G.adj v u

/-- No self-loops. -/
def Graph.Irrefl (G : Graph) : Prop := ∀ v, G.adj v v = false

/-- Node lists of NetworkX graphs never repeat a node. -/
def Graph.NodesND (G : Graph) : Prop := G.nodes.Nodup

/-- Build a graph from a node list and an undirected edge list. -/
def mkGraph (ns : List Nat) (es : List (Nat × Nat)) : Graph :=
  ⟨ns, fun u v => decide ((u, v) ∈ es) || decide ((v, u) ∈ es)⟩

/-- Edge test of the NetworkX subgraph view induced by the node list `S`
inside `G`: both endpoints must belong to the view. -/
def hasEdgeS (G : Graph) (S : List Nat) (u v : Nat) : Bool :=
  decide (u ∈ S) && decide (v ∈ S) && G.adj u v

/-- The all-pairs adjacency loop shared by the clique validators
(`GraphUtils.validate_clique`, `AlgorithmInterface.validate_clique`,
`CliSAT.verify_clique`, `GRASPMaximumClique._is_valid_clique`): vertex `i`
is tested against every later vertex `j`. -/
def pairsAdj (G : Graph) : List Nat → Bool
  | [] => true
  | v :: rest => rest.all (fun u => G.adj v u) && pairsAdj G rest

/-- GraphUtils.validate_clique (src/data/graph_utils.py, lines 64-92) and the
identical AlgorithmInterface.validate_clique: empty and singleton lists are
accepted outright; otherwise every vertex must exist in the graph and every
pair must be adjacent. -/
def validateClique (G : Graph) (K : List Nat) : Bool :=
  if K.length ≤ 1 then true
  else (K.all (fun v => decide (v ∈ G.nodes))) && pairsAdj G K

/-- CliSAT.verify_clique (src/algorithms/clisat_exact.py, lines 639-658):
no membership test, only the pairwise adjacency loop. -/
def verifyClique (G : Graph) (K : List Nat) : Bool :=
  if K.length ≤ 1 then true else pairsAdj G K

theorem pairsAdj_iff (G : Graph) (K : List Nat) :
    pairsAdj G K = true ↔ K.Pairwise (fun u v => G.adj u v = true) := by
  induction K with
  | nil => simp [pairsAdj]
  | cons v rest ih =>
    simp [pairsAdj, List.all_eq_true, ih, List.pairwise_cons]

theorem boolExt {a b : Bool} (h : a = true ↔ b = true) : a = b := by
  cases a <;> cases b <;> simp_all

/-- A list whose elements pairwise satisfy `G.adj · · = true`; the notion of
valid clique used throughout. -/
def IsCliqueList (G : Graph) (K : List Nat) : Prop :=
  K.Pairwise (fun u v => G.adj u v = true)

instance (G : Graph) (K : List Nat) : Decidable (IsCliqueList G K) := by
  unfold IsCliqueList; infer_instance

/-! ### Stable insertion sort, the embedding of Python list.sort

Python list.sort is a stable sort; its observable behaviour is fully
characterised by the comparator plus stability, so any stable sorting
algorithm is a faithful embedding.  We use insertion sort with the ties-keep
original-order placement. -/

/-- Insert `x` before the first element `y` with `le x y`; elements tied with
`x` that are already in the list stay in front of it, which is exactly the
stability discipline of Python list.sort. -/
def insertS {α : Type} (le : α → α → Bool) (x : α) : List α → List α
  | [] => [x]
  | y :: ys => if le x y then x :: y :: ys else y :: insertS le x ys

/-- Stable insertion sort. -/
def isort {α : Type} (le : α → α → Bool) : List α → List α
  | [] => []
  | x :: xs => insertS le x (isort le xs)

theorem insertS_perm {α : Type} (le : α → α → Bool) (x : α) (l : List α) :
    (insertS le x l).Perm (x :: l) := by
  induction l with
  | nil => exact List.Perm.refl _
  | cons y ys ih =>
    cases h : le x y with
    | true => simp [insertS, h]
    | false =>
      simp only [insertS, h, Bool.false_eq_true, if_false]
      exact (ih.cons y).trans (List.Perm.swap x y ys)

theorem isort_perm {α : Type} (le : α → α → Bool) (l : List α) :
    (isort le l).Perm l := by
  induction l with
  | nil => exact List.Perm.refl _
  | cons x xs ih =>
    exact (insertS_perm le x (isort le xs)).trans (ih.cons x)

theorem mem_insertS {α : Type} (le : α → α → Bool) (x : α) (l : List α)
    (z : α) : z ∈ insertS le x l ↔ z = x ∨ z ∈ l := by
  constructor
  · intro h
    have := (insertS_perm le x l).mem_iff.mp h
    simpa using this
  · intro h
    apply (insertS_perm le x l).mem_iff.mpr
    simpa using h

theorem insertS_sorted {α : Type} (le : α → α → Bool)
    (htot : ∀ a b, le a b = true ∨ le b a = true)
    (htrans : ∀ a b c, le a b = true → le b c = true → le a c = true)
    (x : α) (l : List α) (h : l.Pairwise (fun a b => le a b = true)) :
    (insertS le x l).Pairwise (fun a b => le a b = true) := by
  induction l with
  | nil => simp [insertS]
  | cons y ys ih =>
    rw [List.pairwise_cons] at h
    cases hxy : le x y with
    | true =>
      simp only [insertS, hxy, if_true]
      refine List.Pairwise.cons ?_ (List.Pairwise.cons h.1 h.2)
      intro z hz
      rcases List.mem_cons.mp hz with rfl | hz
      · exact hxy
      · exact htrans x y z hxy (h.1 z hz)
    | false =>
      simp only [insertS, hxy, Bool.false_eq_true, if_false]
      refine List.Pairwise.cons ?_ (ih h.2)
      intro z hz
      rw [mem_insertS] at hz
      rcases hz with rfl | hz
      · rcases htot z y with h1 | h1
        · simp [hxy] at h1
        · exact h1
      · exact h.1 z hz

theorem isort_sorted {α : Type} (le : α → α → Bool)
    (htot : ∀ a b, le a b = true ∨ le b a = true)
    (htrans : ∀ a b c, le a b = true → le b c = true → le a c = true)
    (l : List α) : (isort le l).Pairwise (fun a b => le a b = true) := by
  induction l with
  | nil => simp [isort]
  | cons x xs ih => exact insertS_sorted le htot htrans x _ ih

/-- The ordering a stable sort actually realises: `a` before `b` means `a`
compares no greater than `b`, and if the two are tied then `a` occupied an
earlier position (`pos`) in the input. -/
def StableBefore {α : Type} (le : α → α → Bool) (pos : α → Nat) (a b : α) :
    Prop :=
  le a b = true ∧ (le b a = true → pos a < pos b)

theorem insertS_stable {α : Type} (le : α → α → Bool) (pos : α → Nat)
    (htot : ∀ a b, le a b = true ∨ le b a = true)
    (htrans : ∀ a b c, le a b = true → le b c = true → le a c = true)
    (x : α) (l : List α)
    (h1 : l.Pairwise (StableBefore le pos))
    (h2 : ∀ y ∈ l, pos x < pos y) :
    (insertS le x l).Pairwise (StableBefore le pos) := by
  induction l with
  | nil => simp [insertS]
  | cons y ys ih =>
    rw [List.pairwise_cons] at h1
    cases hxy : le x y with
    | true =>
      simp only [insertS, hxy, if_true]
      refine List.Pairwise.cons ?_ (List.Pairwise.cons h1.1 h1.2)
      intro z hz
      rcases List.mem_cons.mp hz with rfl | hz
      · exact ⟨hxy, fun _ => h2 z (by simp)⟩
      · exact ⟨htrans x y z hxy (h1.1 z hz).1, fun _ => h2 z (by simp [hz])⟩
    | false =>
      simp only [insertS, hxy, Bool.false_eq_true, if_false]
      have hyx : le y x = true := by
        rcases htot x y with h | h
        · simp [hxy] at h
        · exact h
      refine List.Pairwise.cons ?_ (ih h1.2 (fun z hz => h2 z (by simp [hz])))
      intro z hz
      rw [mem_insertS] at hz
      rcases hz with rfl | hz
      · exact ⟨hyx, fun hxyt => by simp [hxy] at hxyt⟩
      · exact h1.1 z hz

theorem isort_stable {α : Type} (le : α → α → Bool) (pos : α → Nat)
    (htot : ∀ a b, le a b = true ∨ le b a = true)
    (htrans : ∀ a b c, le a b = true → le b c = true → le a c = true)
    (l : List α) (h : l.Pairwise (fun a b => pos a < pos b)) :
    (isort le l).Pairwise (StableBefore le pos) := by
  induction l with
  | nil => simp [isort]
  | cons x xs ih =>
    rw [List.pairwise_cons] at h
    refine insertS_stable le pos htot htrans x _ (ih h.2) ?_
    intro y hy
    exact h.1 y ((isort_perm le xs).mem_iff.mp hy)

/-! ### Exact fractions

Python float values that are only ever compared (neighborhood densities,
RCL thresholds) are modelled as exact fractions with positive denominators;
comparison is value comparison by cross-multiplication, so two fractions
are tied exactly when they denote the same rational. -/

structure Frac where
  num : Int
  den : Int

def fracOfNat (n : Nat) : Frac := ⟨n, 1⟩

/-- Value comparison of fractions (correct whenever denominators are
positive, which holds for every fraction the embedding builds). -/
def fracLe (a b : Frac) : Bool := decide (a.num * b.den ≤ b.num * a.den)

def fracAdd (a b : Frac) : Frac :=
  ⟨a.num * b.den + b.num * a.den, a.den * b.den⟩

def fracSub (a b : Frac) : Frac :=
  ⟨a.num * b.den - b.num * a.den, a.den * b.den⟩

def fracMul (a b : Frac) : Frac := ⟨a.num * b.num, a.den * b.den⟩

theorem fracLe_total (a b : Frac) : fracLe a b = true ∨ fracLe b a = true := by
  simp only [fracLe, decide_eq_true_eq]
  rcases le_total (a.num * b.den) (b.num * a.den) with h | h
  · left; exact h
  · right; exact h

theorem fracLe_trans (a b c : Frac) (ha : 0 < a.den) (hb : 0 < b.den)
    (hc : 0 < c.den) (h1 : fracLe a b = true) (h2 : fracLe b c = true) :
    fracLe a c = true := by
  simp only [fracLe, decide_eq_true_eq] at *
  have h1' := mul_le_mul_of_nonneg_right h1 (le_of_lt hc)
  have h2' := mul_le_mul_of_nonneg_right h2 (le_of_lt ha)
  have e1 : (b.num * a.den) * c.den = (b.num * c.den) * a.den := by ring
  have hchain : (a.num * b.den) * c.den ≤ (c.num * b.den) * a.den := by
    refine le_trans h1' ?_
    rw [e1]
    exact h2'
  have e2 : (a.num * b.den) * c.den = (a.num * c.den) * b.den := by ring
  have e3 : (c.num * b.den) * a.den = (c.num * a.den) * b.den := by ring
  rw [e2, e3] at hchain
  exact le_of_mul_le_mul_right hchain hb

/-! ### COLOR-SORT (CliSAT.color_sort, src/algorithms/clisat_exact.py 547-577) -/

/-- Neighbor list of `v`, in node-list order. -/
def neighborsOf (G : Graph) (v : Nat) : List Nat :=
  G.nodes.filter (fun u => G.adj v u)

/-- NetworkX degree of `v`. -/
def degreeOf (G : Graph) (v : Nat) : Nat :=
  (neighborsOf G v).length

/-- Number of edges of the subgraph induced by a (duplicate-free) vertex
list: unordered adjacent pairs, as len(subgraph.edges()) counts them. -/
def edgeCount (G : Graph) : List Nat → Nat
  | [] => 0
  | v :: rest => (rest.filter (fun u => G.adj v u)).length + edgeCount G rest

/-- Neighborhood density computed by color_sort: edges among the neighbors
of `v` divided by the pair count, 0 for fewer than two neighbors.  The
Python float division is modelled as the exact fraction it approximates. -/
def densityOf (G : Graph) (v : Nat) : Frac :=
  let nb := neighborsOf G v
  if nb = [] then fracOfNat 0
  else
    let maxEdges := nb.length * (nb.length - 1) / 2
    if maxEdges = 0 then fracOfNat 0
    else ⟨edgeCount G nb, maxEdges⟩

theorem densityOf_den_pos (G : Graph) (v : Nat) : 0 < (densityOf G v).den := by
  unfold densityOf
  by_cases h1 : neighborsOf G v = []
  · simp [h1, fracOfNat]
  · simp only [h1, if_false]
    by_cases h2 : (neighborsOf G v).length * ((neighborsOf G v).length - 1) / 2 = 0
    · simp [h2, fracOfNat]
    · simp only [h2, if_false]
      exact_mod_cast Nat.pos_of_ne_zero h2

/-- The Python sort key of color_sort is the tuple (-degree, -density);
`keyLe a b` is the tuple comparison key(a) ≤ key(b). -/
def keyLe (G : Graph) (a b : Nat) : Bool :=
  decide (degreeOf G b < degreeOf G a) ||
    (decide (degreeOf G a = degreeOf G b) &&
      fracLe (densityOf G b) (densityOf G a))

theorem keyLe_total (G : Graph) : ∀ a b, keyLe G a b = true ∨ keyLe G b a = true := by
  intro a b
  simp only [keyLe, Bool.or_eq_true, Bool.and_eq_true, decide_eq_true_eq]
  rcases Nat.lt_trichotomy (degreeOf G a) (degreeOf G b) with h | h | h
  · right; left; exact h
  · rcases fracLe_total (densityOf G a) (densityOf G b) with hd | hd
    · right; right; exact ⟨h.symm, hd⟩
    · left; right; exact ⟨h, hd⟩
  · left; left; exact h

theorem keyLe_trans (G : Graph) :
    ∀ a b c, keyLe G a b = true → keyLe G b c = true → keyLe G a c = true := by
  intro a b c hab hbc
  simp only [keyLe, Bool.or_eq_true, Bool.and_eq_true, decide_eq_true_eq] at *
  rcases hab with h1 | ⟨h1, h1d⟩ <;> rcases hbc with h2 | ⟨h2, h2d⟩
  · left; exact h2.trans h1
  · left; rw [← h2]; exact h1
  · left; rw [h1]; exact h2
  · right
    refine ⟨h1.trans h2, ?_⟩
    exact fracLe_trans _ _ _ (densityOf_den_pos G c) (densityOf_den_pos G b)
      (densityOf_den_pos G a) h2d h1d

/-- color_sort: the node list, stably sorted by the key (-degree, -density).
Ties are resolved by stability, i.e. by position in the node list. -/
def colorSort (G : Graph) : List Nat :=
  isort (keyLe G) G.nodes

/-- Modelled from the spec wording of §4.7 for comparison with the code:
sort by key (-degree, -neighborhood-density) with ties broken by vertex id,
i.e. sort by the strict total order (key, id). -/
def specColorSort (G : Graph) : List Nat :=
  isort (fun a b =>
    (keyLe G a b && !(keyLe G b a)) ||
      (keyLe G a b && keyLe G b a && decide (a ≤ b))) G.nodes

/-! ### Greedy initial clique (CliSAT.greedy_initial_solution, lines 579-617)

The source iterates over the degree-sorted vertex list and reassigns the
name `vertices` after the clique reaches size 4; in Python the reassignment
does not affect the running for-loop, which keeps iterating the original
list object, and the rebound value feeds only the next (equally ineffective)
rebinding.  The effective behaviour is a single scan of the degree-sorted
list, embedded here directly. -/
def greedyScan (G : Graph) : List Nat → List Nat → List Nat
  | clique, [] => clique
  | clique, v :: rest =>
    if clique.all (fun u => G.adj v u) then greedyScan G (clique ++ [v]) rest
    else greedyScan G clique rest

def greedyInitialSolution (G : Graph) : List Nat :=
  greedyScan G [] (isort (fun a b => decide (degreeOf G b ≤ degreeOf G a)) G.nodes)

/-! ### GRASP construction (src/algorithms/grasp_heuristic.py)

Python sets of vertices are modelled as duplicate-free lists kept in node
order; the only use of iteration order is which element a random draw picks,
and all theorems below quantify over every possible draw. -/

/-- Effective degree of a candidate inside the candidate list
(_build_restricted_candidate_list lines 259-264): the number of other
candidates `other` with `candidate in adjacency_dict[other]`. -/
def effDegree (G : Graph) (cands : List Nat) (c : Nat) : Nat :=
  (cands.filter (fun o => decide (o ≠ c) && G.adj o c)).length

/-- _build_restricted_candidate_list (lines 241-285).  Degrees are sorted
descending (stable), the threshold is worst + alpha * (best - worst) — or
best when best = worst — and the RCL keeps the candidates whose degree
reaches the threshold. -/
def buildRCL (G : Graph) (alpha : Frac) (cands : List Nat) : List Nat :=
  if cands = [] then []
  else
    let cd := cands.map (fun c => (c, effDegree G cands c))
    let sorted := isort (fun a b => decide (b.2 ≤ a.2)) cd
    if sorted = [] then cands
    else
      let best := (sorted.headD (0, 0)).2
      let worst := (sorted.getLastD (0, 0)).2
      let threshold : Frac :=
        if best = worst then fracOfNat best
        else fracAdd (fracOfNat worst)
          (fracMul alpha (fracSub (fracOfNat best) (fracOfNat worst)))
      (sorted.filter (fun p => fracLe threshold (fracOfNat p.2))).map Prod.fst

/-- One run of the construction loop of _greedy_randomized_construction
(lines 195-239).  `rng` gives, for each step, the random index drawn from
the RCL; the fuel argument dominates the loop count (each step removes the
selected vertex from the candidate set). -/
def constructAux (G : Graph) (alpha : Frac) (rng : Nat → Nat) :
    Nat → List Nat → List Nat → Nat → List Nat
  | 0, clique, _, _ => clique
  | fuel + 1, clique, cands, step =>
    if cands = [] then clique
    else
      let valid :=
        if clique = [] then cands
        else cands.filter (fun c => clique.all (fun v => G.adj v c))
      if valid = [] then clique
      else
        let rcl := buildRCL G alpha valid
        if rcl = [] then clique
        else
          let selected := rcl.getD (rng step % rcl.length) 0
          constructAux G alpha rng fuel
            (clique ++ [selected])
            ((cands.erase selected).filter (fun u => G.adj selected u))
            (step + 1)

/-- _greedy_randomized_construction: the loop starts from the empty clique
and the full candidate set; |nodes| + 1 rounds of fuel dominate the loop
(each round consumes one candidate). -/
def construct (G : Graph) (alpha : Frac) (rng : Nat → Nat) : List Nat :=
  constructAux G alpha rng (G.nodes.length + 1) [] G.nodes 0

/-! ### GRASP local search (grasp_heuristic.py lines 287-459) -/

/-- GRASPMaximumClique._is_valid_clique (lines 441-459): same all-pairs loop
as the other validators, driven by the adjacency dictionary. -/
def graspValidClique (G : Graph) (K : List Nat) : Bool :=
  if K.length ≤ 1 then true else pairsAdj G K

/-- _local_search_add (lines 332-350): the first non-member adjacent to the
whole clique is appended; otherwise the clique is returned unchanged. -/
def lsAdd (G : Graph) (K : List Nat) : List Nat :=
  match (G.nodes.filter (fun c => decide (c ∉ K))).find?
      (fun c => K.all (fun v => G.adj v c)) with
  | some c => K ++ [c]
  | none => K

/-- Inner loop of _local_search_swap for a fixed outgoing vertex. -/
def swapTry (G : Graph) (K : List Nat) (nonK : List Nat) (vOut : Nat) :
    Option (List Nat) :=
  (nonK.find? (fun vIn =>
      graspValidClique G (K.map (fun v => if v = vOut then vIn else v)))).map
    (fun vIn => K.map (fun v => if v = vOut then vIn else v))

def lsSwapLoop (G : Graph) (K : List Nat) (nonK : List Nat) :
    List Nat → List Nat
  | [] => K
  | vOut :: rest =>
    match swapTry G K nonK vOut with
    | some K2 => K2
    | none => lsSwapLoop G K nonK rest

/-- _local_search_swap (lines 352-375). -/
def lsSwap (G : Graph) (K : List Nat) : List Nat :=
  if K.length ≤ 1 then K
  else lsSwapLoop G K (G.nodes.filter (fun v => decide (v ∉ K))) K

/-- The candidate-selection scan of _greedy_expansion (lines 422-432):
first candidate adjacent to the whole clique with strictly largest effective
degree among the candidates. -/
def pickBest (G : Graph) (cands : List Nat) (K : List Nat) : Option Nat :=
  (cands.foldl
    (fun acc c =>
      if K.all (fun v => G.adj v c) then
        let d : ℤ := ((cands.filter (fun o => decide (o ≠ c) && G.adj o c)).length : ℤ)
        if acc.2 < d then (some c, d) else acc
      else acc)
    ((none : Option Nat), (-1 : ℤ))).1

def greedyExpAux (G : Graph) : Nat → List Nat → List Nat
  | 0, K => K
  | fuel + 1, K =>
    match pickBest G (G.nodes.filter (fun v => decide (v ∉ K))) K with
    | some c => greedyExpAux G fuel (K ++ [c])
    | none => K

/-- _greedy_expansion (lines 404-439); each round adds one node, so
|nodes| + 1 rounds of fuel dominate the while loop. -/
def greedyExp (G : Graph) (K : List Nat) : List Nat :=
  greedyExpAux G (G.nodes.length + 1) K

/-- _local_search_remove_add (lines 377-402): drop each vertex in turn,
greedily re-expand, keep the strictly best expansion. -/
def lsRemoveAdd (G : Graph) (K : List Nat) : List Nat :=
  if K.length ≤ 1 then K
  else
    K.foldl
      (fun best vr =>
        let e := greedyExp G (K.filter (fun v => decide (v ≠ vr)))
        if best.length < e.length then e else best)
      K

/-- One outer cycle of _local_search (lines 306-328): ADD, then SWAP, then
REMOVE-ADD, adopting the first strictly larger clique; the Bool records
whether the cycle improved. -/
def lsCycle (G : Graph) (K : List Nat) : List Nat × Bool :=
  let a := lsAdd G K
  if K.length < a.length then (a, true)
  else
    let s := lsSwap G K
    if K.length < s.length then (s, true)
    else
      let r := lsRemoveAdd G K
      if K.length < r.length then (r, true) else (K, false)

/-- The while loop of _local_search: `intensity` is incremented at the top
of every cycle (improving or not) and the loop stops at the first cycle
without improvement or when the cap is reached.  Returns the final clique,
the number of cycles executed, and how many of them did not improve. -/
def lsAux (G : Graph) : Nat → List Nat → List Nat × Nat × Nat
  | 0, K => (K, 0, 0)
  | cap + 1, K =>
    match lsCycle G K with
    | (K2, true) =>
      let r := lsAux G cap K2
      (r.1, r.2.1 + 1, r.2.2)
    | (_, false) => (K, 1, 1)

/-- _local_search with intensity cap `cap` (params.local_search_intensity). -/
def localSearch (G : Graph) (cap : Nat) (K : List Nat) : List Nat :=
  (lsAux G cap K).1

/-- No local-search operator strictly enlarges `K`. -/
def NoOpImproves (G : Graph) (K : List Nat) : Prop :=
  (lsAdd G K).length ≤ K.length ∧ (lsSwap G K).length ≤ K.length ∧
    (lsRemoveAdd G K).length ≤ K.length

instance (G : Graph) (K : List Nat) : Decidable (NoOpImproves G K) := by
  unfold NoOpImproves; infer_instance

/-! ### CliSAT exact solver (src/algorithms/clisat_exact.py)

Mutable solver state becomes the record `CState`.  The wall clock is an
oracle consulted once per `_time_exceeded` call (indexed by a tick counter),
the Glucose3 solver is an oracle from the call index and the CNF to an
`Except`-value — `Except.error` models a raised solver exception, which the
source does not catch — and the id()-keyed coloring cache of filtcol is an
oracle from the filter-phase call index to an optional cached coloring
(id-based keying depends on memory layout, so every possible cache answer is
quantified over). -/

structure CState where
  lb : Nat
  maxClique : List Nat
  nodesExplored : Nat
  satCalls : Nat
  prunedByBound : Nat
  filterCalls : Nat
  satcolCalls : Nat
  ticks : Nat

/-- One `_time_exceeded` poll: the oracle answer at the current tick. -/
def checkTime (timeO : Nat → Bool) (st : CState) : Bool × CState :=
  (timeO st.ticks, { st with ticks := st.ticks + 1 })

/-- The Boolean-solver oracle: call index and CNF to SAT answer or error. -/
def SatOracle : Type := Nat → List (List Int) → Except Unit Bool

/-- Vertices of a coloring in first-occurrence order; this is the order in
which build_pmax_sat assigns SAT variables 1, 2, ... . -/
def firstOccs (l : List Nat) : List Nat :=
  l.foldl (fun acc v => if v ∈ acc then acc else acc ++ [v]) []

/-- All ordered pairs (earlier, later) of a list: itertools.combinations. -/
def pairsOf {α : Type} : List α → List (α × α)
  | [] => []
  | x :: xs => xs.map (fun y => (x, y)) ++ pairsOf xs

/-- build_pmax_sat (lines 412-453) over the adjacency test `A` of the
current (sub)graph: binary clauses forbid non-adjacent pairs inside a color
class, and every non-empty class contributes an at-least-one clause. -/
def buildPmax (A : Nat → Nat → Bool) (coloring : List (List Nat)) :
    List (List Int) :=
  let assign := firstOccs coloring.flatten
  let var : Nat → Int := fun v => (assign.indexOf v : Int) + 1
  let binClauses :=
    (coloring.map (fun c =>
      (pairsOf c).filterMap (fun p =>
        if A p.1 p.2 then none else some [-(var p.1), -(var p.2)]))).flatten
  let classClauses :=
    coloring.filterMap (fun c => if c = [] then none else some (c.map var))
  binClauses ++ classClauses

/-- is_failed_literal (lines 390-410): bump sat_calls, extend the coloring
with the singleton class [v], build the P-MAX formula and ask the solver.
A solver exception is not caught and surfaces in the Except value. -/
def isFailedLiteralE (orac : SatOracle) (A : Nat → Nat → Bool) (v : Nat)
    (coloring : List (List Nat)) (st : CState) : Except Unit Bool × CState :=
  let st1 := { st with satCalls := st.satCalls + 1 }
  ((orac st.satCalls (buildPmax A (coloring ++ [[v]]))).map (fun r => !r), st1)

/-- One round of iseq_coloring (lines 344-353): scan the uncolored vertices
and greedily grow an independent set; returns the class and the vertices
left uncolored, both in scan order. -/
def pickIndep (A : Nat → Nat → Bool) : List Nat → List Nat →
    List Nat × List Nat
  | [], acc => (acc, [])
  | v :: rest, acc =>
    if acc.all (fun u => !A v u) then pickIndep A rest (acc ++ [v])
    else
      let r := pickIndep A rest acc
      (r.1, v :: r.2)

def iseqAux (A : Nat → Nat → Bool) : Nat → List Nat → List (List Nat)
  | 0, _ => []
  | _, [] => []
  | k + 1, uncolored =>
    let r := pickIndep A uncolored []
    if r.1 = [] then [] else r.1 :: iseqAux A k r.2

/-- iseq_coloring (lines 328-359): at most k color classes; a negative k
(possible since k = lb - |K_hat| is an int) yields no classes, exactly as
the Python while loop does. -/
def iseq (A : Nat → Nat → Bool) (k : Int) (S : List Nat) : List (List Nat) :=
  iseqAux A k.toNat S

/-- The failed-literal refinement loop of satcol (lines 383-387), iterating
over a snapshot of B while (P, B) evolve; a solver exception aborts the
loop and propagates. -/
def satcolRefineE (orac : SatOracle) (A : Nat → Nat → Bool)
    (coloring : List (List Nat)) :
    List Nat → List Nat × List Nat → CState →
      Except Unit (List Nat × List Nat) × CState
  | [], PB, st => (Except.ok PB, st)
  | v :: rest, PB, st =>
    match isFailedLiteralE orac A v coloring st with
    | (Except.error e, st1) => (Except.error e, st1)
    | (Except.ok true, st1) =>
      satcolRefineE orac A coloring rest (PB.1 ++ [v], PB.2.erase v) st1
    | (Except.ok false, st1) => satcolRefineE orac A coloring rest PB st1

/-- satcol (lines 361-388) on the subgraph of `G` induced by `S`: default
coloring iseq(S, lb - |K_hat|) when none is supplied, P = union of the
classes, B = the remaining vertices of S, then failed-literal refinement. -/
def satcolE (orac : SatOracle) (G : Graph) (S K_hat : List Nat)
    (P_c : Option (List (List Nat))) (st : CState) :
    Except Unit (List Nat × List Nat) × CState :=
  let coloring :=
    match P_c with
    | some c => c
    | none => iseq (hasEdgeS G S) ((st.lb : Int) - K_hat.length) S
  let P := coloring.flatten
  let B := S.filter (fun v => decide (v ∉ P))
  satcolRefineE orac (hasEdgeS G S) coloring B (P, B) st

/-- filtcol (lines 475-500): the cache oracle stands for the id()-keyed
dictionary lookup (empty answer means a fresh iseq reference coloring is
computed); the result keeps the vertices of S lying in some class. -/
def filtcol (cacheO : Nat → Option (List (List Nat))) (G : Graph)
    (S : List Nat) (st : CState) : List Nat :=
  let ref0 := (cacheO st.filterCalls).getD []
  let ref :=
    if ref0 = [] then iseq (hasEdgeS G S) ((min S.length st.lb : Nat) : Int) S
    else ref0
  S.filter (fun v => decide (v ∈ ref.flatten))

/-- filtsat (lines 502-524): per candidate v, color the sub-subgraph on
P_final + [v] with |P_final| + 1 classes and run the failed-literal test;
an uncaught solver exception propagates. -/
def filtsatE (orac : SatOracle) (G : Graph) (S : List Nat) :
    List Nat → List Nat × List Nat → CState →
      Except Unit (List Nat × List Nat) × CState
  | [], PB, st => (Except.ok PB, st)
  | v :: rest, PB, st =>
    let sub := S.filter (fun u => decide (u ∈ PB.1 ++ [v]))
    let col := iseq (hasEdgeS G sub) ((PB.1.length : Int) + 1) sub
    match isFailedLiteralE orac (hasEdgeS G S) v col st with
    | (Except.error e, st1) => (Except.error e, st1)
    | (Except.ok true, st1) =>
      filtsatE orac G S rest (PB.1 ++ [v], PB.2.erase v) st1
    | (Except.ok false, st1) => filtsatE orac G S rest PB st1

/-- filter_phase (lines 455-473): FiltCOL then FiltSAT.  The K_hat argument
of the source is unused there and kept for signature fidelity. -/
def filterPhaseE (orac : SatOracle) (cacheO : Nat → Option (List (List Nat)))
    (G : Graph) (S : List Nat) (_K_hat : List Nat) (st : CState) :
    Except Unit (List Nat × List Nat) × CState :=
  let Pf := filtcol cacheO G S st
  let Bf := S.filter (fun v => decide (v ∉ Pf))
  filtsatE orac G S Bf (Pf, Bf) st

/-- is_k_partite (lines 526-545). -/
def isKPartite (G : Graph) (S : List Nat) (k : Int) : Bool :=
  if S = [] then true
  else
    let col := iseq (hasEdgeS G S) k S
    decide ((col.map List.length).sum = S.length) &&
      decide ((col.length : Int) ≤ k)

/-- The V_child construction of the branch loop (lines 264-275): vertices
of P adjacent to b, then vertices of B adjacent to b that precede b by raw
identifier. -/
def vChild (G : Graph) (S P B : List Nat) (b : Nat) : List Nat :=
  P.filter (fun v => hasEdgeS G S b v) ++
    B.filter (fun v => decide (v ≠ b) && hasEdgeS G S b v && decide (v < b))

/-- The incumbent update at the entry of find_max_clique (lines 226-228):
adopt K_hat when it strictly beats lb. -/
def entryUpdate (K_hat : List Nat) (st : CState) : CState :=
  if st.lb < K_hat.length then
    { st with lb := K_hat.length, maxClique := K_hat }
  else st

/-- The incumbent update at a leaf of the branch loop (lines 277-284):
adopt K_hat + [b] when it strictly beats lb. -/
def leafUpdate (K_hat : List Nat) (b : Nat) (st : CState) : CState :=
  if st.lb < K_hat.length + 1 then
    { st with lb := K_hat.length + 1, maxClique := K_hat ++ [b] }
  else st

/-- Lines 299-304: recurse on the child node when B_child is non-empty,
else count a prune. -/
def childStep (rec : List Nat → List Nat → Nat → CState → CState × Bool)
    (Sc K_hat : List Nat) (b : Nat) (PBc : List Nat × List Nat)
    (st3 : CState) : CState × Bool :=
  if PBc.2 = [] then
    ({ st3 with prunedByBound := st3.prunedByBound + 1 }, false)
  else rec Sc (K_hat ++ [b]) st3.lb st3

/-- The branch loop of find_max_clique (lines 260-304), iterating over the
branching vertices; `rec` is the recursive call on a child node.  The Bool
of the result is true when an uncaught solver exception aborted the loop. -/
def branchLoopE (rec : List Nat → List Nat → Nat → CState → CState × Bool)
    (timeO : Nat → Bool) (orac : SatOracle)
    (cacheO : Nat → Option (List (List Nat))) (G : Graph)
    (S K_hat P B : List Nat) : List Nat → CState → CState × Bool
  | [], st => (st, false)
  | b :: rest, st =>
    let tc := checkTime timeO st
    if tc.1 then (tc.2, false)
    else
      let st1 := tc.2
      let vc := vChild G S P B b
      if vc = [] then
        branchLoopE rec timeO orac cacheO G S K_hat P B rest
          (leafUpdate K_hat b st1)
      else
        let Sc := S.filter (fun v => decide (v ∈ vc))
        if isKPartite G Sc ((st1.lb : Int) - K_hat.length) then
          match filterPhaseE orac cacheO G Sc K_hat st1 with
          | (Except.error _, st2) => (st2, true)
          | (Except.ok PBc, st2) =>
            let r := childStep rec Sc K_hat b PBc
              { st2 with filterCalls := st2.filterCalls + 1 }
            if r.2 then r
            else branchLoopE rec timeO orac cacheO G S K_hat P B rest r.1
        else
          match satcolE orac G Sc K_hat none st1 with
          | (Except.error _, st2) => (st2, true)
          | (Except.ok PBc, st2) =>
            let r := childStep rec Sc K_hat b PBc
              { st2 with satcolCalls := st2.satcolCalls + 1 }
            if r.2 then r
            else branchLoopE rec timeO orac cacheO G S K_hat P B rest r.1

/-- find_max_clique (lines 211-304) with explicit recursion fuel (the call
depth of the Python recursion is finite; every theorem quantifies over the
fuel).  Entry: bump nodes_explored, poll the clock, update the incumbent,
compute (P, B) via iseq + satcol, prune or loop over B. -/
def findMaxCliqueE (timeO : Nat → Bool) (orac : SatOracle)
    (cacheO : Nat → Option (List (List Nat))) (G : Graph) :
    Nat → List Nat → List Nat → Nat → CState → CState × Bool
  | 0, _, _, _, st => (st, false)
  | fuel + 1, S, K_hat, lbArg, st =>
    let st0 := { st with nodesExplored := st.nodesExplored + 1 }
    let tc := checkTime timeO st0
    if tc.1 then (tc.2, false)
    else
      let st2 := entryUpdate K_hat tc.2
      let Pc := iseq (hasEdgeS G S) ((lbArg : Int) - K_hat.length) S
      match satcolE orac G S K_hat (some Pc) st2 with
      | (Except.error _, st3) => (st3, true)
      | (Except.ok PB, st3) =>
        if PB.2 = [] then
          ({ st3 with prunedByBound := st3.prunedByBound + 1 }, false)
        else
          branchLoopE (findMaxCliqueE timeO orac cacheO G fuel) timeO orac
            cacheO G S K_hat PB.1 PB.2 PB.2 st3

/-- The top-level loop of solve (lines 171-191) over the COLOR-SORT
positions range(lb, n). -/
def solveLoopE (fmc : List Nat → List Nat → Nat → CState → CState × Bool)
    (timeO : Nat → Bool) (G : Graph) (ordering : List Nat) :
    List Nat → CState → CState × Bool
  | [], st => (st, false)
  | i :: rest, st =>
    let tc := checkTime timeO st
    if tc.1 then (tc.2, false)
    else
      let st1 := tc.2
      let vi := ordering.getD i 0
      let vh := (ordering.take i).filter (fun v => G.adj vi v)
      if vh = [] then solveLoopE fmc timeO G ordering rest st1
      else
        let S := G.nodes.filter (fun v => decide (v ∈ vh))
        let r := fmc S [vi] st1.lb st1
        if r.2 then r else solveLoopE fmc timeO G ordering rest r.1

/-- solve (lines 135-209): greedy initial incumbent, COLOR-SORT, main loop.
Logging and printing are pure output and are not modelled. -/
def clisatSolveE (timeO : Nat → Bool) (orac : SatOracle)
    (cacheO : Nat → Option (List (List Nat))) (G : Graph) (fuel : Nat) :
    CState × Bool :=
  let k0 := greedyInitialSolution G
  let st1 : CState :=
    { lb := k0.length, maxClique := k0, nodesExplored := 0, satCalls := 0,
      prunedByBound := 0, filterCalls := 0, satcolCalls := 0, ticks := 0 }
  let ordering := colorSort G
  solveLoopE (findMaxCliqueE timeO orac cacheO G fuel) timeO G ordering
    (List.range' st1.lb (G.nodes.length - st1.lb)) st1

/-! ### Concrete graphs used by witnesses and counterexamples -/

theorem mkGraph_sym (ns : List Nat) (es : List (Nat × Nat)) :
    (mkGraph ns es).Sym := fun _ _ => Bool.or_comm _ _

/-- A triangle missing one edge: nodes 1,2,3, edges 1-2 and 2-3. -/
def gPath : Graph := mkGraph [1, 2, 3] [(1, 2), (2, 3)]

/-- The complete graph on nodes 0..4. -/
def gK5 : Graph :=
  mkGraph [0, 1, 2, 3, 4]
    [(0, 1), (0, 2), (0, 3), (0, 4), (1, 2), (1, 3), (1, 4), (2, 3), (2, 4),
      (3, 4)]

/-- Two isolated nodes inserted in the order 2, 1. -/
def gTwo : Graph := mkGraph [2, 1] []

/-- A triangle on 1,2,3. -/
def gTri : Graph := mkGraph [1, 2, 3] [(1, 2), (1, 3), (2, 3)]

/-! ### C8 — validator permutation invariance -/

/-- C8: for every graph with symmetric adjacency, both clique validators
(GraphUtils.validate_clique / AlgorithmInterface.validate_clique, and
CliSAT.verify_clique) give the same answer on any two permutations of a
vertex list, and empty and singleton lists are always accepted. -/
theorem validators_permutation_invariant :
    ∀ G : Graph, G.Sym →
      (∀ K K2 : List Nat, K.Perm K2 →
        validateClique G K = validateClique G K2 ∧
          verifyClique G K = verifyClique G K2) ∧
      (∀ v : Nat, validateClique G [v] = true ∧ verifyClique G [v] = true) ∧
      validateClique G [] = true ∧ verifyClique G [] = true := by
  intro G hs
  have hsym : Symmetric (fun u v => G.adj u v = true) := by
    intro a b h
    rw [hs b a]
    exact h
  refine ⟨?_, ?_, ?_, ?_⟩
  · intro K K2 hp
    have hlen := hp.length_eq
    have hmemall :
        (K.all (fun v => decide (v ∈ G.nodes))) =
          (K2.all (fun v => decide (v ∈ G.nodes))) := by
      apply boolExt
      simp only [List.all_eq_true]
      constructor
      · intro h v hv
        exact h v (hp.mem_iff.mpr hv)
      · intro h v hv
        exact h v (hp.mem_iff.mp hv)
    have hpadj : pairsAdj G K = pairsAdj G K2 := by
      apply boolExt
      rw [pairsAdj_iff, pairsAdj_iff]
      exact hp.pairwise_iff (fun {a b} h => hsym h)
    constructor
    · unfold validateClique
      rw [hlen, hmemall, hpadj]
    · unfold verifyClique
      rw [hlen, hpadj]
  · intro v
    exact ⟨by simp [validateClique], by simp [verifyClique]⟩
  · simp [validateClique]
  · simp [verifyClique]

theorem validators_permutation_invariant_witness :
    validateClique gPath [1, 2] = validateClique gPath [2, 1] ∧
      verifyClique gPath [1, 2] = verifyClique gPath [2, 1] :=
  (validators_permutation_invariant gPath (mkGraph_sym _ _)).1 [1, 2] [2, 1]
    (by decide)

/-! ### C10 — validator behaviour on vertices absent from the graph -/

/-- C10: validate_clique accepts every single-vertex list, even when the
vertex is not a node of the graph, and returns false (a value, the
embedding is a total function) on every list of length at least 2 that
contains a vertex absent from the graph. -/
theorem validate_clique_missing_vertex :
    ∀ G : Graph,
      (∀ v : Nat, validateClique G [v] = true) ∧
      (∀ K : List Nat, 2 ≤ K.length → (∃ v ∈ K, v ∉ G.nodes) →
        validateClique G K = false) := by
  intro G
  constructor
  · intro v
    simp [validateClique]
  · intro K hlen hex
    have hnotle : ¬ K.length ≤ 1 := by omega
    have hall : (K.all (fun v => decide (v ∈ G.nodes))) = false := by
      rcases hex with ⟨v, hv, hnv⟩
      rcases hb : K.all (fun v => decide (v ∈ G.nodes)) with _ | _
      · rfl
      · rw [List.all_eq_true] at hb
        have := hb v hv
        simp at this
        exact absurd this hnv
    simp only [validateClique, if_neg hnotle, hall, Bool.false_and]

theorem validate_clique_missing_vertex_witness :
    validateClique gPath [7] = true ∧ validateClique gPath [7, 8] = false :=
  ⟨(validate_clique_missing_vertex gPath).1 7,
    (validate_clique_missing_vertex gPath).2 [7, 8] (by decide) (by decide)⟩

/-! ### C1 — the RCL at alpha = 0 -/

theorem pairwise_snd_ge_last (l : List (Nat × Nat)) (d : Nat × Nat)
    (hpw : l.Pairwise (fun a b => b.2 ≤ a.2)) :
    ∀ p ∈ l, (l.getLastD d).2 ≤ p.2 := by
  rw [List.getLastD_eq_getLast?]
  induction l with
  | nil => intro p hp; cases hp
  | cons a rest ih =>
    rw [List.pairwise_cons] at hpw
    intro p hp
    cases rest with
    | nil =>
      rw [List.mem_singleton] at hp
      subst hp
      simp
    | cons b r2 =>
      rw [List.getLast?_cons_cons]
      rcases List.mem_cons.mp hp with rfl | hp2
      · obtain ⟨la, hla⟩ : ∃ la, (b :: r2).getLast? = some la :=
          Option.isSome_iff_exists.mp (List.getLast?_isSome.mpr (by simp))
        rw [hla]
        exact hpw.1 la (List.mem_of_mem_getLast? hla)
      · exact ih hpw.2 p hp2

/-- C1 counterexample: on the path 1-2-3 with alpha = 0 the RCL built by
_build_restricted_candidate_list contains all three candidates (threshold =
minimum effective degree), not a single one. -/
theorem rcl_alpha_zero_not_singleton :
    buildRCL gPath (fracOfNat 0) [1, 2, 3] = [2, 1, 3] ∧
      (buildRCL gPath (fracOfNat 0) [1, 2, 3]).length ≠ 1 := by
  constructor
  · decide
  · decide

/-- C1 amended: with alpha = 0 the threshold of
_build_restricted_candidate_list degenerates to the minimum effective
degree, so the RCL is the whole valid candidate list (as a permutation,
ordered by descending effective degree); the construction phase at
alpha = 0 is therefore purely random over all candidates, not greedy. -/
theorem rcl_alpha_zero_all_candidates :
    ∀ (G : Graph) (cands : List Nat),
      (buildRCL G (fracOfNat 0) cands).Perm cands := by
  intro G cands
  by_cases hc : cands = []
  · subst hc
    simp [buildRCL]
  · have htot : ∀ a b : Nat × Nat,
        decide (b.2 ≤ a.2) = true ∨ decide (a.2 ≤ b.2) = true := by
      intro a b
      simpa using le_total b.2 a.2
    have htrans : ∀ a b c : Nat × Nat, decide (b.2 ≤ a.2) = true →
        decide (c.2 ≤ b.2) = true → decide (c.2 ≤ a.2) = true := by
      intro a b c h1 h2
      simp only [decide_eq_true_eq] at *
      exact h2.trans h1
    simp only [buildRCL, if_neg hc]
    set cd := cands.map (fun c => (c, effDegree G cands c)) with hcd
    set sorted := isort (fun a b : Nat × Nat => decide (b.2 ≤ a.2)) cd
      with hsorted
    have hperm : sorted.Perm cd := isort_perm _ _
    have hsne : sorted ≠ [] := by
      intro h
      apply hc
      have hlen := hperm.length_eq
      rw [h] at hlen
      simp only [List.length_nil] at hlen
      have : cands.length = 0 := by
        rw [hcd] at hlen
        simpa using hlen.symm
      exact List.length_eq_zero.mp this
    rw [if_neg hsne]
    have hpw : sorted.Pairwise (fun a b : Nat × Nat => b.2 ≤ a.2) := by
      have := isort_sorted (fun a b : Nat × Nat => decide (b.2 ≤ a.2)) htot
        htrans cd
      rw [← hsorted] at this
      exact this.imp (fun h => by simpa using h)
    have hworst := pairwise_snd_ge_last sorted (0, 0) hpw
    have hfilter :
        sorted.filter (fun p =>
          fracLe
            (if (sorted.headD (0, 0)).2 = (sorted.getLastD (0, 0)).2
              then fracOfNat (sorted.headD (0, 0)).2
              else fracAdd (fracOfNat (sorted.getLastD (0, 0)).2)
                (fracMul (fracOfNat 0)
                  (fracSub (fracOfNat (sorted.headD (0, 0)).2)
                    (fracOfNat (sorted.getLastD (0, 0)).2))))
            (fracOfNat p.2)) = sorted := by
      apply List.filter_eq_self.mpr
      intro p hp
      have hle := hworst p hp
      by_cases hbw : (sorted.headD (0, 0)).2 = (sorted.getLastD (0, 0)).2
      · rw [if_pos hbw, hbw]
        simp only [fracLe, fracOfNat, mul_one, decide_eq_true_eq]
        exact_mod_cast hle
      · rw [if_neg hbw]
        simp only [fracLe, fracOfNat, fracAdd, fracMul, fracSub,
          decide_eq_true_eq]
        push_cast
        ring_nf
        exact_mod_cast hle
    rw [hfilter]
    have : (sorted.map Prod.fst).Perm (cd.map Prod.fst) := hperm.map _
    have hcdmap : cd.map Prod.fst = cands := by
      rw [hcd]
      simp [Function.comp_def]
    rw [hcdmap] at this
    exact this

/-! ### C5 — color_sort ordering and tie-breaks -/

theorem nodup_pairwise_indexOf (l : List Nat) (h : l.Nodup) :
    l.Pairwise (fun a b => l.indexOf a < l.indexOf b) := by
  induction l with
  | nil => simp
  | cons x xs ih =>
    rw [List.nodup_cons] at h
    refine List.Pairwise.cons ?_ ?_
    · intro b hb
      have hbx : x ≠ b := fun he => h.1 (he ▸ hb)
      rw [List.indexOf_cons_self, List.indexOf_cons_ne xs hbx]
      omega
    · refine List.Pairwise.imp_of_mem ?_ (ih h.2)
      intro a b ha hb hlt
      have hax : x ≠ a := fun he => h.1 (he ▸ ha)
      have hbx : x ≠ b := fun he => h.1 (he ▸ hb)
      rw [List.indexOf_cons_ne xs hax, List.indexOf_cons_ne xs hbx]
      omega

/-- C5 counterexample: two isolated vertices inserted in the order 2, 1
have identical keys; color_sort keeps the insertion order [2, 1], while the
claimed id tie-break would give [1, 2]. -/
theorem color_sort_id_tiebreak_refuted :
    colorSort gTwo = [2, 1] ∧ specColorSort gTwo = [1, 2] ∧
      colorSort gTwo ≠ specColorSort gTwo := by
  refine ⟨by decide, by decide, by decide⟩

/-- C5 amended: color_sort returns a permutation of the node list sorted by
the key (-degree, -neighborhood-density); ties on the key are broken by
position in the node list (insertion order, Python sort stability), not by
vertex id. -/
theorem color_sort_sorted_stable :
    ∀ G : Graph, G.NodesND →
      (colorSort G).Perm G.nodes ∧
        (colorSort G).Pairwise
          (StableBefore (keyLe G) (fun v => G.nodes.indexOf v)) := by
  intro G hnd
  refine ⟨isort_perm _ _, ?_⟩
  exact isort_stable (keyLe G) (fun v => G.nodes.indexOf v) (keyLe_total G)
    (keyLe_trans G) G.nodes (nodup_pairwise_indexOf G.nodes hnd)

theorem color_sort_sorted_stable_witness :
    (colorSort gPath).Perm gPath.nodes ∧
      (colorSort gPath).Pairwise
        (StableBefore (keyLe gPath) (fun v => gPath.nodes.indexOf v)) :=
  color_sort_sorted_stable gPath (by unfold Graph.NodesND gPath mkGraph; decide)

/-! ### C3 — the v-before-b test of the branch loop -/

/-- C3 counterexample: in gPath the COLOR-SORT order is [2, 1, 3], so
vertex 1 follows vertex 2 in COLOR-SORT rank; yet with P = [], B = [1, 2]
and branching vertex b = 2 the code includes 1 in V_child because the test
is the raw comparison 1 < 2.  The claimed rank condition is violated. -/
theorem branch_child_rank_refuted :
    ¬ (∀ (G : Graph) (S P B : List Nat) (b : Nat), b ∈ B →
        (∀ x ∈ P, x ∉ B) → ∀ v ∈ B, v ∈ vChild G S P B b →
          (colorSort G).indexOf v < (colorSort G).indexOf b) := by
  intro h
  have hc := h gPath [1, 2, 3] [] [1, 2] 2 (by decide) (by decide) 1
    (by decide) (by decide)
  exact absurd hc (by decide)

/-- C3 amended: a vertex v of B enters the child candidate set for
branching vertex b exactly when v differs from b, v is adjacent to b in the
current subgraph, and v precedes b by raw vertex identifier (v < b) — not
by COLOR-SORT rank. -/
theorem branch_child_from_B_iff :
    ∀ (G : Graph) (S P B : List Nat) (b : Nat), (∀ x ∈ P, x ∉ B) →
      ∀ v ∈ B, (v ∈ vChild G S P B b ↔
        (v ≠ b ∧ hasEdgeS G S b v = true ∧ v < b)) := by
  intro G S P B b hdisj v hv
  unfold vChild
  rw [List.mem_append]
  constructor
  · intro h
    rcases h with h | h
    · exact absurd (List.mem_filter.mp h).1 (fun hp => hdisj v hp hv)
    · have hf := (List.mem_filter.mp h).2
      simp only [Bool.and_eq_true, decide_eq_true_eq] at hf
      exact ⟨hf.1.1, hf.1.2, hf.2⟩
  · rintro ⟨h1, h2, h3⟩
    right
    rw [List.mem_filter]
    refine ⟨hv, ?_⟩
    simp [h1, h2, h3]

theorem branch_child_from_B_iff_witness :
    1 ∈ vChild gPath [1, 2, 3] [] [1, 2] 2 ↔
      (1 ≠ 2 ∧ hasEdgeS gPath [1, 2, 3] 2 1 = true ∧ 1 < 2) :=
  branch_child_from_B_iff gPath [1, 2, 3] [] [1, 2] 2 (by decide) 1 (by decide)

/-! ### C4 — local-search termination -/

theorem lsCycle_false (G : Graph) (K K2 : List Nat)
    (h : lsCycle G K = (K2, false)) : NoOpImproves G K := by
  unfold lsCycle at h
  by_cases h1 : K.length < (lsAdd G K).length
  · simp [h1] at h
  · by_cases h2 : K.length < (lsSwap G K).length
    · simp [h1, h2] at h
    · by_cases h3 : K.length < (lsRemoveAdd G K).length
      · simp [h1, h2, h3] at h
      · exact ⟨not_lt.mp h1, not_lt.mp h2, not_lt.mp h3⟩

/-- C4 counterexample: on K5 with the default intensity 3 and initial
clique [0], local search stops at [0, 1, 2, 3] after three improving
cycles and zero non-improving ones, although ADD still improves the result
(to all of K5).  Termination is caused by improving cycles exhausting the
cap, which the claim says must not count. -/
theorem local_search_cap_counterexample :
    (lsAux gK5 3 [0]).1 = [0, 1, 2, 3] ∧ (lsAux gK5 3 [0]).2.2 = 0 ∧
      (lsAdd gK5 [0, 1, 2, 3]).length = 5 ∧
      ¬ (NoOpImproves gK5 (lsAux gK5 3 [0]).1 ∨ 3 ≤ (lsAux gK5 3 [0]).2.2) := by
  refine ⟨by decide, by decide, by decide, by decide⟩

/-- C4 amended: the outer loop of _local_search counts every cycle,
improving or not, against local_search_intensity; it stops at the first
non-improving cycle, so at most one cycle fails to improve, and whenever
fewer than local_search_intensity cycles were executed no operator (ADD,
SWAP, REMOVE-ADD) improves the returned clique. -/
theorem local_search_cycle_cap :
    ∀ (G : Graph) (cap : Nat) (K : List Nat),
      (lsAux G cap K).2.1 ≤ cap ∧ (lsAux G cap K).2.2 ≤ 1 ∧
        ((lsAux G cap K).2.1 < cap → NoOpImproves G (lsAux G cap K).1) := by
  intro G cap
  induction cap with
  | zero =>
    intro K
    refine ⟨le_refl _, by simp [lsAux], ?_⟩
    intro h
    simp [lsAux] at h
  | succ n ih =>
    intro K
    rcases hcy : lsCycle G K with ⟨K2, imp⟩
    cases imp with
    | true =>
      have hek : lsAux G (n + 1) K = ((lsAux G n K2).1,
          (lsAux G n K2).2.1 + 1, (lsAux G n K2).2.2) := by
        simp [lsAux, hcy]
      rw [hek]
      dsimp only
      refine ⟨by have := (ih K2).1; omega, (ih K2).2.1, ?_⟩
      intro hlt
      exact (ih K2).2.2 (by omega)
    | false =>
      have hek : lsAux G (n + 1) K = (K, 1, 1) := by
        simp [lsAux, hcy]
      rw [hek]
      dsimp only
      exact ⟨by omega, le_refl _, fun _ => lsCycle_false G K K2 hcy⟩

theorem local_search_cycle_cap_witness :
    (lsAux gK5 6 [0]).2.1 < 6 ∧ NoOpImproves gK5 (lsAux gK5 6 [0]).1 :=
  ⟨by decide, (local_search_cycle_cap gK5 6 [0]).2.2 (by decide)⟩

/-! ### C2 — behaviour of satcol under SAT solver errors -/

/-- State with the incumbent and every counter at zero. -/
def cst0 : CState := ⟨0, [], 0, 0, 0, 0, 0, 0⟩

/-- C2 counterexample: is_failed_literal wraps the Glucose3 call in no
try/except, so a solver error surfaces out of satcol instead of leaving the
tested vertex in B: with an always-erroring solver and B = [3], satcol
returns an error and no (P, B) pair at all. -/
theorem satcol_error_not_absorbed :
    (satcolE (fun _ _ => Except.error ()) gPath [1, 2, 3] []
        (some [[1], [2]]) cst0).1 = Except.error () ∧
      ¬ ∃ PB, (satcolE (fun _ _ => Except.error ()) gPath [1, 2, 3] []
          (some [[1], [2]]) cst0).1 = Except.ok PB := by
  have h0 : (satcolE (fun _ _ => Except.error ()) gPath [1, 2, 3] []
      (some [[1], [2]]) cst0).1 = Except.error () := rfl
  refine ⟨h0, ?_⟩
  rintro ⟨PB, h⟩
  rw [h0] at h
  exact Except.noConfusion h

/-- C2 amended: a SAT solver error inside is_failed_literal is not caught:
it propagates out of satcol to the caller, and a (P, B) pair is produced
exactly when every solver call returns; in particular, when the first
failed-literal test of the refinement loop errors, satcol itself returns
that error. -/
theorem satcol_sat_error_behaviour :
    (∀ (orac : SatOracle) (G : Graph) (S K_hat : List Nat)
        (P_c : List (List Nat)) (st : CState),
        (∀ i cnf, ∃ r, orac i cnf = Except.ok r) →
        ∃ PB st', satcolE orac G S K_hat (some P_c) st =
          (Except.ok PB, st')) ∧
      (∀ (orac : SatOracle) (G : Graph) (S K_hat : List Nat)
        (P_c : List (List Nat)) (st : CState) (b : Nat) (rest : List Nat),
        S.filter (fun v => decide (v ∉ P_c.flatten)) = b :: rest →
        orac st.satCalls (buildPmax (hasEdgeS G S) (P_c ++ [[b]])) =
          Except.error () →
        (satcolE orac G S K_hat (some P_c) st).1 = Except.error ()) := by
  constructor
  · intro orac G S K_hat P_c st hok
    suffices hgen : ∀ (l : List Nat) (PB : List Nat × List Nat) (st1 : CState),
        ∃ PB2 st2, satcolRefineE orac (hasEdgeS G S) P_c l PB st1 =
          (Except.ok PB2, st2) by
      simpa only [satcolE] using hgen _ _ st
    intro l
    induction l with
    | nil => intro PB st1; exact ⟨PB, st1, rfl⟩
    | cons v rest ih =>
      intro PB st1
      obtain ⟨r, hr⟩ := hok st1.satCalls
        (buildPmax (hasEdgeS G S) (P_c ++ [[v]]))
      cases r with
      | true =>
        obtain ⟨PB2, st2, hrec⟩ := ih PB
          { st1 with satCalls := st1.satCalls + 1 }
        refine ⟨PB2, st2, ?_⟩
        simp only [satcolRefineE, isFailedLiteralE, hr, Except.map,
          Bool.not_true]
        exact hrec
      | false =>
        obtain ⟨PB2, st2, hrec⟩ := ih (PB.1 ++ [v], PB.2.erase v)
          { st1 with satCalls := st1.satCalls + 1 }
        refine ⟨PB2, st2, ?_⟩
        simp only [satcolRefineE, isFailedLiteralE, hr, Except.map,
          Bool.not_false]
        exact hrec
  · intro orac G S K_hat P_c st b rest hB horac
    simp only [satcolE, hB, satcolRefineE, isFailedLiteralE, horac,
      Except.map]

theorem satcol_sat_error_behaviour_witness :
    (∃ PB st', satcolE (fun _ _ => Except.ok true) gPath [1, 2, 3] []
        (some [[1], [2]]) cst0 = (Except.ok PB, st')) ∧
      (satcolE (fun _ _ => Except.error ()) gPath [1, 2, 3] []
          (some [[1], [2]]) cst0).1 = Except.error () :=
  ⟨satcol_sat_error_behaviour.1 (fun _ _ => Except.ok true) gPath [1, 2, 3]
      [] [[1], [2]] cst0 (fun _ _ => ⟨true, rfl⟩),
    satcol_sat_error_behaviour.2 (fun _ _ => Except.error ()) gPath [1, 2, 3]
      [] [[1], [2]] cst0 3 [] (by decide) rfl⟩

/-! ### C9 — the GRASP construction builds maximal cliques -/

theorem buildRCL_subset (G : Graph) (alpha : Frac) (cands : List Nat) :
    ∀ x ∈ buildRCL G alpha cands, x ∈ cands := by
  intro x hx
  by_cases hc : cands = []
  · subst hc
    simp [buildRCL] at hx
  · simp only [buildRCL, if_neg hc] at hx
    set cd := cands.map (fun c => (c, effDegree G cands c)) with hcd
    set sorted := isort (fun a b : Nat × Nat => decide (b.2 ≤ a.2)) cd
      with hsorted
    by_cases hs : sorted = []
    · rw [if_pos hs] at hx
      exact hx
    · rw [if_neg hs] at hx
      rw [List.mem_map] at hx
      obtain ⟨p, hp, hpx⟩ := hx
      have hpsort : p ∈ sorted := (List.mem_filter.mp hp).1
      have hpcd : p ∈ cd := (isort_perm _ _).mem_iff.mp hpsort
      rw [hcd, List.mem_map] at hpcd
      obtain ⟨c, hc2, hcp⟩ := hpcd
      rw [← hpx, ← hcp]
      exact hc2

theorem buildRCL_ne_nil (G : Graph) (alpha : Frac) (cands : List Nat)
    (hc : cands ≠ []) (hle : fracLe alpha (fracOfNat 1) = true)
    (hden : 0 < alpha.den) : buildRCL G alpha cands ≠ [] := by
  have htot : ∀ a b : Nat × Nat,
      decide (b.2 ≤ a.2) = true ∨ decide (a.2 ≤ b.2) = true := by
    intro a b
    simpa using le_total b.2 a.2
  have htrans : ∀ a b c : Nat × Nat, decide (b.2 ≤ a.2) = true →
      decide (c.2 ≤ b.2) = true → decide (c.2 ≤ a.2) = true := by
    intro a b c h1 h2
    simp only [decide_eq_true_eq] at *
    exact h2.trans h1
  simp only [buildRCL, if_neg hc]
  set cd := cands.map (fun c => (c, effDegree G cands c)) with hcd
  set sorted := isort (fun a b : Nat × Nat => decide (b.2 ≤ a.2)) cd
    with hsorted
  have hsne : sorted ≠ [] := by
    intro h
    apply hc
    have hlen := (isort_perm (fun a b : Nat × Nat => decide (b.2 ≤ a.2)) cd).length_eq
    rw [← hsorted, h] at hlen
    simp only [List.length_nil] at hlen
    have : cands.length = 0 := by
      rw [hcd] at hlen
      simpa using hlen.symm
    exact List.length_eq_zero.mp this
  rw [if_neg hsne]
  have hpw : sorted.Pairwise (fun a b : Nat × Nat => b.2 ≤ a.2) := by
    have := isort_sorted (fun a b : Nat × Nat => decide (b.2 ≤ a.2)) htot
      htrans cd
    rw [← hsorted] at this
    exact this.imp (fun h => by simpa using h)
  have hworst := pairwise_snd_ge_last sorted (0, 0) hpw
  intro hnil
  rw [List.map_eq_nil_iff] at hnil
  have hhead : sorted.headD (0, 0) ∈ sorted := by
    cases hs : sorted with
    | nil => exact absurd hs hsne
    | cons a t => simp
  have hpred : fracLe
      (if (sorted.headD (0, 0)).2 = (sorted.getLastD (0, 0)).2
        then fracOfNat (sorted.headD (0, 0)).2
        else fracAdd (fracOfNat (sorted.getLastD (0, 0)).2)
          (fracMul alpha (fracSub (fracOfNat (sorted.headD (0, 0)).2)
            (fracOfNat (sorted.getLastD (0, 0)).2))))
      (fracOfNat (sorted.headD (0, 0)).2) = true := by
    by_cases hbw : (sorted.headD (0, 0)).2 = (sorted.getLastD (0, 0)).2
    · rw [if_pos hbw]
      simp [fracLe, fracOfNat]
    · rw [if_neg hbw]
      have hwle : (sorted.getLastD (0, 0)).2 ≤ (sorted.headD (0, 0)).2 :=
        hworst _ hhead
      have hwleZ : ((sorted.getLastD (0, 0)).2 : Int) ≤
          ((sorted.headD (0, 0)).2 : Int) := by exact_mod_cast hwle
      have hnumden : alpha.num ≤ alpha.den := by
        simpa [fracLe, fracOfNat] using hle
      simp only [fracLe, fracOfNat, fracAdd, fracMul, fracSub,
        decide_eq_true_eq]
      have hmul := mul_le_mul_of_nonneg_right hnumden
        (sub_nonneg.mpr hwleZ)
      nlinarith [hmul, hden]
  have : sorted.headD (0, 0) ∈ sorted.filter (fun p =>
      fracLe (if (sorted.headD (0, 0)).2 = (sorted.getLastD (0, 0)).2
        then fracOfNat (sorted.headD (0, 0)).2
        else fracAdd (fracOfNat (sorted.getLastD (0, 0)).2)
          (fracMul alpha (fracSub (fracOfNat (sorted.headD (0, 0)).2)
            (fracOfNat (sorted.getLastD (0, 0)).2))))
        (fracOfNat p.2)) := by
    rw [List.mem_filter]
    exact ⟨hhead, hpred⟩
  rw [hnil] at this
  cases this

theorem constructAux_spec (G : Graph) (alpha : Frac) (rng : Nat → Nat)
    (hle : fracLe alpha (fracOfNat 1) = true) (hden : 0 < alpha.den) :
    ∀ (fuel : Nat) (clique cands : List Nat) (step : Nat),
      cands.length < fuel → cands.Nodup → IsCliqueList G clique →
      (∀ v, v ∈ cands ↔
        (v ∈ G.nodes ∧ v ∉ clique ∧ ∀ u ∈ clique, G.adj u v = true)) →
      clique ⊆ G.nodes →
      IsCliqueList G (constructAux G alpha rng fuel clique cands step) ∧
        (∀ v ∈ G.nodes, v ∉ constructAux G alpha rng fuel clique cands step →
          ¬ ∀ u ∈ constructAux G alpha rng fuel clique cands step,
            G.adj u v = true) ∧
        constructAux G alpha rng fuel clique cands step ⊆ G.nodes := by
  intro fuel
  induction fuel with
  | zero =>
    intro clique cands step hf _ _ _ _
    exact absurd hf (Nat.not_lt_zero _)
  | succ n ih =>
    intro clique cands step hf hnd hcl hinv hsub
    by_cases hc : cands = []
    · have hres : constructAux G alpha rng (n + 1) clique cands step =
          clique := by
        simp [constructAux, hc]
      rw [hres]
      refine ⟨hcl, ?_, hsub⟩
      intro v hvn hvk hall
      have : v ∈ cands := (hinv v).mpr ⟨hvn, hvk, hall⟩
      rw [hc] at this
      cases this
    · have hvalid :
          (if clique = [] then cands
            else cands.filter (fun c => clique.all (fun v => G.adj v c))) =
            cands := by
        by_cases hk : clique = []
        · rw [if_pos hk]
        · rw [if_neg hk]
          apply List.filter_eq_self.mpr
          intro c hc2
          rw [List.all_eq_true]
          intro u hu
          exact ((hinv c).mp hc2).2.2 u hu
      have hrcl : buildRCL G alpha cands ≠ [] :=
        buildRCL_ne_nil G alpha cands hc hle hden
      have hres : constructAux G alpha rng (n + 1) clique cands step =
          constructAux G alpha rng n
            (clique ++ [(buildRCL G alpha cands).getD
              (rng step % (buildRCL G alpha cands).length) 0])
            ((cands.erase ((buildRCL G alpha cands).getD
              (rng step % (buildRCL G alpha cands).length) 0)).filter
              (fun u => G.adj ((buildRCL G alpha cands).getD
                (rng step % (buildRCL G alpha cands).length) 0) u))
            (step + 1) := by
        rw [constructAux, if_neg hc, hvalid, if_neg hc]
        rw [if_neg hrcl]
      set selected := (buildRCL G alpha cands).getD
        (rng step % (buildRCL G alpha cands).length) 0 with hseldef
      have hselmem : selected ∈ cands := by
        apply buildRCL_subset G alpha cands
        rw [hseldef]
        have hlt : rng step % (buildRCL G alpha cands).length <
            (buildRCL G alpha cands).length :=
          Nat.mod_lt _ (List.length_pos.mpr hrcl)
        rw [List.getD_eq_getElem _ _ hlt]
        exact List.getElem_mem _
      have hselprops := (hinv selected).mp hselmem
      rw [hres]
      apply ih
      · have h1 : (cands.erase selected).length = cands.length - 1 :=
          List.length_erase_of_mem hselmem
        have h2 := List.length_filter_le
          (fun u => G.adj selected u) (cands.erase selected)
        have h3 : 0 < cands.length := List.length_pos.mpr hc
        omega
      · exact ((hnd.erase selected).filter _)
      · rw [IsCliqueList, List.pairwise_append]
        refine ⟨hcl, by simp, ?_⟩
        intro u hu x hx
        rw [List.mem_singleton] at hx
        subst hx
        exact hselprops.2.2 u hu
      · intro v
        constructor
        · intro hv
          have hvadj : G.adj selected v = true := by
            have := List.mem_filter.mp hv
            exact this.2
          have hverase : v ∈ cands.erase selected :=
            (List.mem_filter.mp hv).1
          have hvne : v ≠ selected :=
            ((List.Nodup.mem_erase_iff hnd).mp hverase).1
          have hvcands : v ∈ cands :=
            ((List.Nodup.mem_erase_iff hnd).mp hverase).2
          have hvprops := (hinv v).mp hvcands
          refine ⟨hvprops.1, ?_, ?_⟩
          · intro hvk
            rw [List.mem_append] at hvk
            rcases hvk with hvk | hvk
            · exact hvprops.2.1 hvk
            · rw [List.mem_singleton] at hvk
              exact hvne hvk
          · intro u hu
            rw [List.mem_append] at hu
            rcases hu with hu | hu
            · exact hvprops.2.2 u hu
            · rw [List.mem_singleton] at hu
              subst hu
              exact hvadj
        · rintro ⟨hvn, hvk, hall⟩
          have hvne : v ≠ selected := by
            intro he
            apply hvk
            rw [he, List.mem_append]
            right
            simp
          have hvclique : v ∉ clique := by
            intro he
            apply hvk
            rw [List.mem_append]
            left
            exact he
          have hvcands : v ∈ cands := (hinv v).mpr
            ⟨hvn, hvclique, fun u hu => hall u (by
              rw [List.mem_append]
              left
              exact hu)⟩
          rw [List.mem_filter]
          refine ⟨(List.Nodup.mem_erase_iff hnd).mpr ⟨hvne, hvcands⟩, ?_⟩
          exact hall selected (by
            rw [List.mem_append]
            right
            simp)
      · intro x hx
        rw [List.mem_append] at hx
        rcases hx with hx | hx
        · exact hsub hx
        · rw [List.mem_singleton] at hx
          subst hx
          exact hselprops.1

/-- C9: for every graph (duplicate-free node list), every alpha in [0, 1]
(a fraction with positive denominator, at most 1) and every sequence of
random draws, the clique built by _greedy_randomized_construction is a
maximal clique: its vertices are pairwise adjacent, they belong to the
graph, and no other node of the graph is adjacent to all of them. -/
theorem construct_is_maximal_clique :
    ∀ (G : Graph) (alpha : Frac) (rng : Nat → Nat), G.NodesND →
      fracLe alpha (fracOfNat 1) = true → 0 < alpha.den →
      IsCliqueList G (construct G alpha rng) ∧
        (∀ v ∈ G.nodes, v ∉ construct G alpha rng →
          ¬ ∀ u ∈ construct G alpha rng, G.adj u v = true) ∧
        construct G alpha rng ⊆ G.nodes := by
  intro G alpha rng hnd hle hden
  apply constructAux_spec G alpha rng hle hden (G.nodes.length + 1) []
    G.nodes 0
  · omega
  · exact hnd
  · simp [IsCliqueList]
  · intro v
    simp
  · simp

theorem construct_is_maximal_clique_witness :
    IsCliqueList gTri (construct gTri ⟨1, 2⟩ (fun _ => 0)) ∧
      (∀ v ∈ gTri.nodes, v ∉ construct gTri ⟨1, 2⟩ (fun _ => 0) →
        ¬ ∀ u ∈ construct gTri ⟨1, 2⟩ (fun _ => 0), gTri.adj u v = true) ∧
      construct gTri ⟨1, 2⟩ (fun _ => 0) ⊆ gTri.nodes :=
  construct_is_maximal_clique gTri ⟨1, 2⟩ (fun _ => 0)
    (by unfold Graph.NodesND gTri mkGraph; decide) (by decide) (by decide)

/-! ### C6 — satcol returns a partition of the candidate set -/

theorem satcolRefineE_partition (orac : SatOracle) (A : Nat → Nat → Bool)
    (coloring : List (List Nat)) (S : List Nat) :
    ∀ (l P0 B0 : List Nat) (st : CState) (P B : List Nat) (st' : CState),
      (∀ x ∈ l, x ∈ S) →
      (∀ v ∈ S, v ∈ P0 ∨ v ∈ B0) → (∀ v ∈ P0, v ∈ S) →
      (∀ v ∈ B0, v ∈ S) → (∀ v ∈ P0, v ∉ B0) → B0.Nodup →
      satcolRefineE orac A coloring l (P0, B0) st =
        (Except.ok (P, B), st') →
      (∀ v ∈ S, v ∈ P ∨ v ∈ B) ∧ (∀ v ∈ P, v ∈ S) ∧ (∀ v ∈ B, v ∈ S) ∧
        (∀ v ∈ P, v ∉ B) := by
  intro l
  induction l with
  | nil =>
    intro P0 B0 st P B st' _ h1 h2 h3 h4 _ heq
    simp only [satcolRefineE, Prod.mk.injEq, Except.ok.injEq] at heq
    obtain ⟨⟨rfl, rfl⟩, -⟩ := heq
    exact ⟨h1, h2, h3, h4⟩
  | cons v rest ih =>
    intro P0 B0 st P B st' hl h1 h2 h3 h4 hnd heq
    have hvS : v ∈ S := hl v (by simp)
    have hlrest : ∀ x ∈ rest, x ∈ S := fun x hx => hl x (by simp [hx])
    simp only [satcolRefineE, isFailedLiteralE] at heq
    cases ho : orac st.satCalls (buildPmax A (coloring ++ [[v]])) with
    | error e =>
      rw [ho] at heq
      simp only [Except.map, Prod.mk.injEq] at heq
      exact absurd heq.1 (fun h => Except.noConfusion h)
    | ok r =>
      rw [ho] at heq
      simp only [Except.map] at heq
      cases r with
      | true =>
        simp only [Bool.not_true] at heq
        exact ih P0 B0 _ P B st' hlrest h1 h2 h3 h4 hnd heq
      | false =>
        simp only [Bool.not_false] at heq
        refine ih (P0 ++ [v]) (B0.erase v) _ P B st' hlrest ?_ ?_ ?_ ?_
          (hnd.erase v) heq
        · intro w hwS
          rcases h1 w hwS with hw | hw
          · left
            simp [hw]
          · by_cases hwv : w = v
            · left
              simp [hwv]
            · right
              exact (List.Nodup.mem_erase_iff hnd).mpr ⟨hwv, hw⟩
        · intro w hw
          rw [List.mem_append] at hw
          rcases hw with hw | hw
          · exact h2 w hw
          · rw [List.mem_singleton] at hw
            subst hw
            exact hvS
        · intro w hw
          exact h3 w (List.mem_of_mem_erase hw)
        · intro w hw hwb
          rw [List.mem_append] at hw
          rcases hw with hw | hw
          · exact h4 w hw (List.mem_of_mem_erase hwb)
          · rw [List.mem_singleton] at hw
            subst hw
            exact absurd hwb (List.Nodup.not_mem_erase hnd)

/-- C6: whatever the outcomes of the failed-literal SAT tests (any oracle,
any solver-call counter), whenever satcol returns a pair (P, B) on a
duplicate-free candidate set S and a coloring whose classes lie inside S,
the two lists partition S: their union covers S, both are contained in S,
and they are disjoint. -/
theorem satcol_partition :
    ∀ (orac : SatOracle) (G : Graph) (S K_hat : List Nat)
      (P_c : List (List Nat)) (st : CState) (P B : List Nat) (st' : CState),
      S.Nodup → (∀ c ∈ P_c, ∀ v ∈ c, v ∈ S) →
      satcolE orac G S K_hat (some P_c) st = (Except.ok (P, B), st') →
      (∀ v ∈ S, v ∈ P ∨ v ∈ B) ∧ (∀ v ∈ P, v ∈ S) ∧ (∀ v ∈ B, v ∈ S) ∧
        (∀ v ∈ P, v ∉ B) := by
  intro orac G S K_hat P_c st P B st' hnd hcls heq
  simp only [satcolE] at heq
  refine satcolRefineE_partition orac (hasEdgeS G S) P_c S
    (S.filter (fun v => decide (v ∉ P_c.flatten))) P_c.flatten
    (S.filter (fun v => decide (v ∉ P_c.flatten))) st P B st'
    ?_ ?_ ?_ ?_ ?_ ?_ heq
  · intro x hx
    exact (List.mem_filter.mp hx).1
  · intro v hv
    by_cases hvp : v ∈ P_c.flatten
    · left
      exact hvp
    · right
      rw [List.mem_filter]
      exact ⟨hv, by simpa using hvp⟩
  · intro v hv
    rw [List.mem_flatten] at hv
    obtain ⟨c, hc, hvc⟩ := hv
    exact hcls c hc v hvc
  · intro v hv
    exact (List.mem_filter.mp hv).1
  · intro v hv hvb
    have := (List.mem_filter.mp hvb).2
    simp only [decide_eq_true_eq] at this
    exact this hv
  · exact hnd.filter _

theorem satcol_partition_witness :
    (∀ v ∈ ([1, 2, 3] : List Nat), v ∈ ([1, 2] : List Nat) ∨
        v ∈ ([3] : List Nat)) ∧
      (∀ v ∈ ([1, 2] : List Nat), v ∈ ([1, 2, 3] : List Nat)) ∧
      (∀ v ∈ ([3] : List Nat), v ∈ ([1, 2, 3] : List Nat)) ∧
      (∀ v ∈ ([1, 2] : List Nat), v ∉ ([3] : List Nat)) :=
  satcol_partition (fun _ _ => Except.ok true) gPath [1, 2, 3] [] [[1], [2]]
    cst0 [1, 2] [3] ⟨0, [], 0, 1, 0, 0, 0, 0⟩ (by decide) (by decide) rfl

/-! ### C7 — the incumbent invariant of the exact solver -/

/-- The incumbent invariant of the SearchState: lb is the length of
max_clique and max_clique is a valid clique. -/
def Inv (G : Graph) (st : CState) : Prop :=
  st.lb = st.maxClique.length ∧ IsCliqueList G st.maxClique

instance (G : Graph) (st : CState) : Decidable (Inv G st) := by
  unfold Inv; infer_instance

theorem satcolRefineE_state (orac : SatOracle) (A : Nat → Nat → Bool)
    (coloring : List (List Nat)) :
    ∀ (l : List Nat) (PB : List Nat × List Nat) (st : CState),
      (satcolRefineE orac A coloring l PB st).2.lb = st.lb ∧
        (satcolRefineE orac A coloring l PB st).2.maxClique =
          st.maxClique := by
  intro l
  induction l with
  | nil => intro PB st; exact ⟨rfl, rfl⟩
  | cons v rest ih =>
    intro PB st
    simp only [satcolRefineE, isFailedLiteralE]
    cases ho : orac st.satCalls (buildPmax A (coloring ++ [[v]])) with
    | error e => simp [Except.map]
    | ok r =>
      cases r with
      | true => simpa [Except.map] using ih _ _
      | false => simpa [Except.map] using ih _ _

theorem satcolE_state (orac : SatOracle) (G : Graph) (S K_hat : List Nat)
    (P_c : Option (List (List Nat))) (st : CState) :
    (satcolE orac G S K_hat P_c st).2.lb = st.lb ∧
      (satcolE orac G S K_hat P_c st).2.maxClique = st.maxClique := by
  simp only [satcolE]
  exact satcolRefineE_state _ _ _ _ _ _

theorem filtsatE_state (orac : SatOracle) (G : Graph) (S : List Nat) :
    ∀ (l : List Nat) (PB : List Nat × List Nat) (st : CState),
      (filtsatE orac G S l PB st).2.lb = st.lb ∧
        (filtsatE orac G S l PB st).2.maxClique = st.maxClique := by
  intro l
  induction l with
  | nil => intro PB st; exact ⟨rfl, rfl⟩
  | cons v rest ih =>
    intro PB st
    simp only [filtsatE, isFailedLiteralE]
    cases ho : orac st.satCalls
        (buildPmax (hasEdgeS G S)
          ((iseq (hasEdgeS G (S.filter (fun u => decide (u ∈ PB.1 ++ [v]))))
            ((PB.1.length : Int) + 1)
            (S.filter (fun u => decide (u ∈ PB.1 ++ [v])))) ++ [[v]])) with
    | error e => simp [Except.map]
    | ok r =>
      cases r with
      | true => simpa [Except.map] using ih _ _
      | false => simpa [Except.map] using ih _ _

theorem filterPhaseE_state (orac : SatOracle)
    (cacheO : Nat → Option (List (List Nat))) (G : Graph)
    (S K_hat : List Nat) (st : CState) :
    (filterPhaseE orac cacheO G S K_hat st).2.lb = st.lb ∧
      (filterPhaseE orac cacheO G S K_hat st).2.maxClique = st.maxClique := by
  simp only [filterPhaseE]
  exact filtsatE_state _ _ _ _ _ _

theorem satcolRefineE_B_subset (orac : SatOracle) (A : Nat → Nat → Bool)
    (coloring : List (List Nat)) :
    ∀ (l P0 B0 : List Nat) (st : CState) (P B : List Nat) (st' : CState),
      satcolRefineE orac A coloring l (P0, B0) st =
        (Except.ok (P, B), st') → ∀ x ∈ B, x ∈ B0 := by
  intro l
  induction l with
  | nil =>
    intro P0 B0 st P B st' heq
    simp only [satcolRefineE, Prod.mk.injEq, Except.ok.injEq] at heq
    obtain ⟨⟨-, rfl⟩, -⟩ := heq
    exact fun x hx => hx
  | cons v rest ih =>
    intro P0 B0 st P B st' heq
    simp only [satcolRefineE, isFailedLiteralE] at heq
    cases ho : orac st.satCalls (buildPmax A (coloring ++ [[v]])) with
    | error e =>
      rw [ho] at heq
      simp only [Except.map, Prod.mk.injEq] at heq
      exact absurd heq.1 (fun h => Except.noConfusion h)
    | ok r =>
      rw [ho] at heq
      simp only [Except.map] at heq
      cases r with
      | true =>
        simp only [Bool.not_true] at heq
        exact ih P0 B0 _ P B st' heq
      | false =>
        simp only [Bool.not_false] at heq
        intro x hx
        exact List.mem_of_mem_erase (ih (P0 ++ [v]) (B0.erase v) _ P B st'
          heq x hx)

theorem satcolE_B_subset (orac : SatOracle) (G : Graph) (S K_hat : List Nat)
    (P_c : Option (List (List Nat))) (st : CState) (P B : List Nat)
    (st' : CState)
    (heq : satcolE orac G S K_hat P_c st = (Except.ok (P, B), st')) :
    ∀ x ∈ B, x ∈ S := by
  simp only [satcolE] at heq
  intro x hx
  have := satcolRefineE_B_subset orac (hasEdgeS G S) _ _ _ _ st P B st' heq
    x hx
  exact (List.mem_filter.mp this).1

theorem filtsatE_B_subset (orac : SatOracle) (G : Graph) (S : List Nat) :
    ∀ (l P0 B0 : List Nat) (st : CState) (P B : List Nat) (st' : CState),
      filtsatE orac G S l (P0, B0) st = (Except.ok (P, B), st') →
      ∀ x ∈ B, x ∈ B0 := by
  intro l
  induction l with
  | nil =>
    intro P0 B0 st P B st' heq
    simp only [filtsatE, Prod.mk.injEq, Except.ok.injEq] at heq
    obtain ⟨⟨-, rfl⟩, -⟩ := heq
    exact fun x hx => hx
  | cons v rest ih =>
    intro P0 B0 st P B st' heq
    simp only [filtsatE, isFailedLiteralE] at heq
    cases ho : orac st.satCalls
        (buildPmax (hasEdgeS G S)
          ((iseq (hasEdgeS G (S.filter (fun u => decide (u ∈ P0 ++ [v]))))
            ((P0.length : Int) + 1)
            (S.filter (fun u => decide (u ∈ P0 ++ [v])))) ++ [[v]])) with
    | error e =>
      rw [ho] at heq
      simp only [Except.map, Prod.mk.injEq] at heq
      exact absurd heq.1 (fun h => Except.noConfusion h)
    | ok r =>
      rw [ho] at heq
      simp only [Except.map] at heq
      cases r with
      | true =>
        simp only [Bool.not_true] at heq
        exact ih P0 B0 _ P B st' heq
      | false =>
        simp only [Bool.not_false] at heq
        intro x hx
        exact List.mem_of_mem_erase (ih (P0 ++ [v]) (B0.erase v) _ P B st'
          heq x hx)

theorem filterPhaseE_B_subset (orac : SatOracle)
    (cacheO : Nat → Option (List (List Nat))) (G : Graph)
    (S K_hat : List Nat) (st : CState) (P B : List Nat) (st' : CState)
    (heq : filterPhaseE orac cacheO G S K_hat st = (Except.ok (P, B), st')) :
    ∀ x ∈ B, x ∈ S := by
  simp only [filterPhaseE] at heq
  intro x hx
  have := filtsatE_B_subset orac G S _ _ _ st P B st' heq x hx
  exact (List.mem_filter.mp this).1

theorem vChild_adj (G : Graph) (S P B : List Nat) (b v : Nat)
    (hv : v ∈ vChild G S P B b) : G.adj b v = true := by
  unfold vChild at hv
  rw [List.mem_append] at hv
  rcases hv with hv | hv
  · have := (List.mem_filter.mp hv).2
    simp only [hasEdgeS, Bool.and_eq_true] at this
    exact this.2
  · have := (List.mem_filter.mp hv).2
    simp only [hasEdgeS, Bool.and_eq_true, decide_eq_true_eq] at this
    exact this.1.2.2

theorem entryUpdate_inv (G : Graph) (K_hat : List Nat) (st : CState)
    (hK : IsCliqueList G K_hat) (hinv : Inv G st) :
    Inv G (entryUpdate K_hat st) ∧ st.lb ≤ (entryUpdate K_hat st).lb := by
  unfold entryUpdate
  by_cases h : st.lb < K_hat.length
  · rw [if_pos h]
    refine ⟨⟨rfl, hK⟩, ?_⟩
    show st.lb ≤ K_hat.length
    omega
  · rw [if_neg h]
    exact ⟨hinv, le_refl _⟩

theorem leafUpdate_inv (G : Graph) (K_hat : List Nat) (b : Nat) (st : CState)
    (hKb : IsCliqueList G (K_hat ++ [b])) (hinv : Inv G st) :
    Inv G (leafUpdate K_hat b st) ∧ st.lb ≤ (leafUpdate K_hat b st).lb := by
  unfold leafUpdate
  by_cases h : st.lb < K_hat.length + 1
  · rw [if_pos h]
    refine ⟨⟨?_, hKb⟩, ?_⟩
    · simp
    · show st.lb ≤ K_hat.length + 1
      omega
  · rw [if_neg h]
    exact ⟨hinv, le_refl _⟩

theorem childStep_inv (G : Graph)
    (rec : List Nat → List Nat → Nat → CState → CState × Bool)
    (hrec : ∀ S2 K2 lbArg st2, IsCliqueList G K2 →
      (∀ v ∈ S2, ∀ u ∈ K2, G.adj u v = true) → Inv G st2 →
      Inv G (rec S2 K2 lbArg st2).1 ∧ st2.lb ≤ (rec S2 K2 lbArg st2).1.lb)
    (Sc K_hat : List Nat) (b : Nat) (PBc : List Nat × List Nat)
    (st3 : CState) (hKb : IsCliqueList G (K_hat ++ [b]))
    (hScK : ∀ v ∈ Sc, ∀ u ∈ K_hat ++ [b], G.adj u v = true)
    (hinv3 : Inv G st3) :
    Inv G (childStep rec Sc K_hat b PBc st3).1 ∧
      st3.lb ≤ (childStep rec Sc K_hat b PBc st3).1.lb := by
  unfold childStep
  by_cases hbc : PBc.2 = []
  · rw [if_pos hbc]
    exact ⟨hinv3, le_refl _⟩
  · rw [if_neg hbc]
    exact hrec Sc (K_hat ++ [b]) st3.lb st3 hKb hScK hinv3

theorem branchLoopE_inv (G : Graph)
    (rec : List Nat → List Nat → Nat → CState → CState × Bool)
    (timeO : Nat → Bool) (orac : SatOracle)
    (cacheO : Nat → Option (List (List Nat)))
    (hrec : ∀ S2 K2 lbArg st2, IsCliqueList G K2 →
      (∀ v ∈ S2, ∀ u ∈ K2, G.adj u v = true) → Inv G st2 →
      Inv G (rec S2 K2 lbArg st2).1 ∧ st2.lb ≤ (rec S2 K2 lbArg st2).1.lb)
    (S K_hat P B : List Nat) (hK : IsCliqueList G K_hat)
    (hSK : ∀ v ∈ S, ∀ u ∈ K_hat, G.adj u v = true) :
    ∀ (bs : List Nat) (st : CState), (∀ b ∈ bs, b ∈ S) → Inv G st →
      Inv G (branchLoopE rec timeO orac cacheO G S K_hat P B bs st).1 ∧
        st.lb ≤
          (branchLoopE rec timeO orac cacheO G S K_hat P B bs st).1.lb := by
  intro bs
  induction bs with
  | nil =>
    intro st _ hinv
    exact ⟨hinv, le_refl _⟩
  | cons b rest ih =>
    intro st hbs hinv
    have hbS : b ∈ S := hbs b (by simp)
    have hrestS : ∀ x ∈ rest, x ∈ S := fun x hx => hbs x (by simp [hx])
    have hKb : IsCliqueList G (K_hat ++ [b]) := by
      rw [IsCliqueList, List.pairwise_append]
      refine ⟨hK, by simp, ?_⟩
      intro u hu x hx
      rw [List.mem_singleton] at hx
      rw [hx]
      exact hSK b hbS u hu
    have hinv1 : Inv G ({ st with ticks := st.ticks + 1 } : CState) := hinv
    have hScK : ∀ v ∈ S.filter (fun v => decide (v ∈ vChild G S P B b)),
        ∀ u ∈ K_hat ++ [b], G.adj u v = true := by
      intro v hv u hu
      rw [List.mem_append] at hu
      rcases hu with hu | hu
      · exact hSK v (List.mem_filter.mp hv).1 u hu
      · rw [List.mem_singleton] at hu
        rw [hu]
        have hvvc : v ∈ vChild G S P B b := by
          have := (List.mem_filter.mp hv).2
          simpa using this
        exact vChild_adj G S P B b v hvvc
    simp only [branchLoopE, checkTime]
    cases htc : timeO st.ticks with
    | true =>
      simp only [if_true]
      exact ⟨hinv, le_refl _⟩
    | false =>
      simp only [Bool.false_eq_true, if_false]
      by_cases hvc : vChild G S P B b = []
      · rw [if_pos hvc]
        have hleaf := leafUpdate_inv G K_hat b
          { st with ticks := st.ticks + 1 } hKb hinv1
        have hres := ih _ hrestS hleaf.1
        exact ⟨hres.1, le_trans hleaf.2 hres.2⟩
      · rw [if_neg hvc]
        by_cases hkp : isKPartite G
            (S.filter (fun v => decide (v ∈ vChild G S P B b)))
            ((({ st with ticks := st.ticks + 1 } : CState).lb : Int) -
              K_hat.length) = true
        · rw [if_pos hkp]
          cases hfp : filterPhaseE orac cacheO G
              (S.filter (fun v => decide (v ∈ vChild G S P B b))) K_hat
              { st with ticks := st.ticks + 1 } with
          | mk res st2 =>
            have hst2 : st2.lb = st.lb ∧ st2.maxClique = st.maxClique := by
              have := filterPhaseE_state orac cacheO G
                (S.filter (fun v => decide (v ∈ vChild G S P B b))) K_hat
                { st with ticks := st.ticks + 1 }
              rw [hfp] at this
              exact this
            have hinv2 : Inv G st2 := by
              rw [Inv, hst2.1, hst2.2]
              exact hinv
            cases res with
            | error e =>
              exact ⟨hinv2, le_of_eq hst2.1.symm⟩
            | ok PBc =>
              have hinv3 : Inv G
                  ({ st2 with filterCalls := st2.filterCalls + 1 } :
                    CState) := hinv2
              have hcs := childStep_inv G rec hrec
                (S.filter (fun v => decide (v ∈ vChild G S P B b))) K_hat b
                PBc { st2 with filterCalls := st2.filterCalls + 1 } hKb
                hScK hinv3
              have hlb2 : st2.lb = st.lb := hst2.1
              have hcs2 : st2.lb ≤ (childStep rec
                  (S.filter (fun v => decide (v ∈ vChild G S P B b))) K_hat
                  b PBc
                  { st2 with filterCalls := st2.filterCalls + 1 }).1.lb :=
                hcs.2
              cases hr2 : (childStep rec
                  (S.filter (fun v => decide (v ∈ vChild G S P B b))) K_hat
                  b PBc
                  { st2 with filterCalls := st2.filterCalls + 1 }).2 with
              | true =>
                simp only [hr2, if_true]
                exact ⟨hcs.1, by omega⟩
              | false =>
                simp only [hr2, Bool.false_eq_true, if_false]
                have hres := ih _ hrestS hcs.1
                have h2 := hres.2
                exact ⟨hres.1, by omega⟩
        · rw [if_neg hkp]
          cases hsc : satcolE orac G
              (S.filter (fun v => decide (v ∈ vChild G S P B b))) K_hat none
              { st with ticks := st.ticks + 1 } with
          | mk res st2 =>
            have hst2 : st2.lb = st.lb ∧ st2.maxClique = st.maxClique := by
              have := satcolE_state orac G
                (S.filter (fun v => decide (v ∈ vChild G S P B b))) K_hat
                none { st with ticks := st.ticks + 1 }
              rw [hsc] at this
              exact this
            have hinv2 : Inv G st2 := by
              rw [Inv, hst2.1, hst2.2]
              exact hinv
            cases res with
            | error e =>
              exact ⟨hinv2, le_of_eq hst2.1.symm⟩
            | ok PBc =>
              have hinv3 : Inv G
                  ({ st2 with satcolCalls := st2.satcolCalls + 1 } :
                    CState) := hinv2
              have hcs := childStep_inv G rec hrec
                (S.filter (fun v => decide (v ∈ vChild G S P B b))) K_hat b
                PBc { st2 with satcolCalls := st2.satcolCalls + 1 } hKb
                hScK hinv3
              have hlb2 : st2.lb = st.lb := hst2.1
              have hcs2 : st2.lb ≤ (childStep rec
                  (S.filter (fun v => decide (v ∈ vChild G S P B b))) K_hat
                  b PBc
                  { st2 with satcolCalls := st2.satcolCalls + 1 }).1.lb :=
                hcs.2
              cases hr2 : (childStep rec
                  (S.filter (fun v => decide (v ∈ vChild G S P B b))) K_hat
                  b PBc
                  { st2 with satcolCalls := st2.satcolCalls + 1 }).2 with
              | true =>
                simp only [hr2, if_true]
                exact ⟨hcs.1, by omega⟩
              | false =>
                simp only [hr2, Bool.false_eq_true, if_false]
                have hres := ih _ hrestS hcs.1
                have h2 := hres.2
                exact ⟨hres.1, by omega⟩

theorem findMaxCliqueE_inv (timeO : Nat → Bool) (orac : SatOracle)
    (cacheO : Nat → Option (List (List Nat))) (G : Graph) :
    ∀ (fuel : Nat) (S K_hat : List Nat) (lbArg : Nat) (st : CState),
      IsCliqueList G K_hat → (∀ v ∈ S, ∀ u ∈ K_hat, G.adj u v = true) →
      Inv G st →
      Inv G (findMaxCliqueE timeO orac cacheO G fuel S K_hat lbArg st).1 ∧
        st.lb ≤
          (findMaxCliqueE timeO orac cacheO G fuel S K_hat lbArg st).1.lb := by
  intro fuel
  induction fuel with
  | zero =>
    intro S K lbArg st _ _ hinv
    exact ⟨hinv, le_refl _⟩
  | succ n ih =>
    intro S K lbArg st hK hSK hinv
    simp only [findMaxCliqueE, checkTime]
    cases htc : timeO
        ({ st with nodesExplored := st.nodesExplored + 1 } : CState).ticks with
    | true =>
      simp only [if_true]
      exact ⟨hinv, le_refl _⟩
    | false =>
      simp only [Bool.false_eq_true, if_false]
      have hinv0 : Inv G
          ({ { st with nodesExplored := st.nodesExplored + 1 } with
            ticks := ({ st with nodesExplored := st.nodesExplored + 1 } :
              CState).ticks + 1 } : CState) := hinv
      have hent := entryUpdate_inv G K
        ({ { st with nodesExplored := st.nodesExplored + 1 } with
          ticks := ({ st with nodesExplored := st.nodesExplored + 1 } :
            CState).ticks + 1 } : CState) hK hinv0
      cases hsc : satcolE orac G S K
          (some (iseq (hasEdgeS G S) ((lbArg : Int) - K.length) S))
          (entryUpdate K
            ({ { st with nodesExplored := st.nodesExplored + 1 } with
              ticks := ({ st with nodesExplored := st.nodesExplored + 1 } :
                CState).ticks + 1 } : CState)) with
      | mk res st3 =>
        have hst3 := satcolE_state orac G S K
          (some (iseq (hasEdgeS G S) ((lbArg : Int) - K.length) S))
          (entryUpdate K
            ({ { st with nodesExplored := st.nodesExplored + 1 } with
              ticks := ({ st with nodesExplored := st.nodesExplored + 1 } :
                CState).ticks + 1 } : CState))
        rw [hsc] at hst3
        have hinv3 : Inv G st3 := by
          rw [Inv, hst3.1, hst3.2]
          exact hent.1
        have hlb3 : st.lb ≤ st3.lb := by
          rw [hst3.1]
          exact hent.2
        cases res with
        | error e =>
          exact ⟨hinv3, hlb3⟩
        | ok PB =>
          dsimp only
          by_cases hbe : PB.2 = []
          · rw [if_pos hbe]
            exact ⟨hinv3, hlb3⟩
          · rw [if_neg hbe]
            have hBS : ∀ x ∈ PB.2, x ∈ S := by
              intro x hx
              exact satcolE_B_subset orac G S K
                (some (iseq (hasEdgeS G S) ((lbArg : Int) - K.length) S))
                _ PB.1 PB.2 st3 (by rw [hsc]) x hx
            have hbl := branchLoopE_inv G
              (findMaxCliqueE timeO orac cacheO G n) timeO orac cacheO
              (fun S2 K2 lbArg2 st2 h1 h2 h3 => ih S2 K2 lbArg2 st2 h1 h2 h3)
              S K PB.1 PB.2 hK hSK PB.2 st3 hBS hinv3
            exact ⟨hbl.1, le_trans hlb3 hbl.2⟩

theorem greedyScan_clique (G : Graph) (hs : G.Sym) :
    ∀ (l clique : List Nat), IsCliqueList G clique →
      IsCliqueList G (greedyScan G clique l) := by
  intro l
  induction l with
  | nil =>
    intro clique h
    exact h
  | cons v rest ih =>
    intro clique h
    simp only [greedyScan]
    by_cases hall : (clique.all (fun u => G.adj v u)) = true
    · rw [if_pos hall]
      apply ih
      rw [IsCliqueList, List.pairwise_append]
      refine ⟨h, by simp, ?_⟩
      intro u hu x hx
      rw [List.mem_singleton] at hx
      rw [hx, hs u v]
      exact List.all_eq_true.mp hall u hu
    · rw [if_neg hall]
      exact ih clique h

theorem solveLoopE_inv
    (fmc : List Nat → List Nat → Nat → CState → CState × Bool)
    (timeO : Nat → Bool) (G : Graph) (ordering : List Nat)
    (hfmc : ∀ S K lbArg st, IsCliqueList G K →
      (∀ v ∈ S, ∀ u ∈ K, G.adj u v = true) → Inv G st →
      Inv G (fmc S K lbArg st).1 ∧ st.lb ≤ (fmc S K lbArg st).1.lb) :
    ∀ (idxs : List Nat) (st : CState), Inv G st →
      Inv G (solveLoopE fmc timeO G ordering idxs st).1 ∧
        st.lb ≤ (solveLoopE fmc timeO G ordering idxs st).1.lb := by
  intro idxs
  induction idxs with
  | nil =>
    intro st hinv
    exact ⟨hinv, le_refl _⟩
  | cons i rest ih =>
    intro st hinv
    simp only [solveLoopE, checkTime]
    cases htc : timeO st.ticks with
    | true =>
      simp only [if_true]
      exact ⟨hinv, le_refl _⟩
    | false =>
      simp only [Bool.false_eq_true, if_false]
      by_cases hvh : (ordering.take i).filter
          (fun v => G.adj (ordering.getD i 0) v) = []
      · rw [if_pos hvh]
        exact ih _ hinv
      · rw [if_neg hvh]
        have hK : IsCliqueList G [ordering.getD i 0] := by
          simp [IsCliqueList]
        have hSK : ∀ v ∈ G.nodes.filter (fun v =>
            decide (v ∈ (ordering.take i).filter
              (fun v => G.adj (ordering.getD i 0) v))),
            ∀ u ∈ [ordering.getD i 0], G.adj u v = true := by
          intro v hv u hu
          rw [List.mem_singleton] at hu
          rw [hu]
          have h2 := (List.mem_filter.mp hv).2
          simp only [decide_eq_true_eq] at h2
          exact (List.mem_filter.mp h2).2
        have hr := hfmc
          (G.nodes.filter (fun v =>
            decide (v ∈ (ordering.take i).filter
              (fun v => G.adj (ordering.getD i 0) v))))
          [ordering.getD i 0]
          (({ st with ticks := st.ticks + 1 } : CState).lb)
          { st with ticks := st.ticks + 1 } hK hSK hinv
        cases hr2 : (fmc
            (G.nodes.filter (fun v =>
              decide (v ∈ (ordering.take i).filter
                (fun v => G.adj (ordering.getD i 0) v))))
            [ordering.getD i 0]
            (({ st with ticks := st.ticks + 1 } : CState).lb)
            { st with ticks := st.ticks + 1 }).2 with
        | true =>
          simp only [hr2, if_true]
          exact ⟨hr.1, hr.2⟩
        | false =>
          simp only [hr2, Bool.false_eq_true, if_false]
          have hres := ih _ hr.1
          exact ⟨hres.1, le_trans hr.2 hres.2⟩

/-- C7: with symmetric adjacency, every call of find_max_clique — under any
clock behaviour, any SAT solver behaviour (including errors) and any
coloring-cache behaviour — preserves the incumbent invariant lb =
len(max_clique) with max_clique a valid clique, and never decreases lb;
and the state solve ends with (greedy initial incumbent, main loop over the
COLOR-SORT positions) satisfies the same invariant, with lb at least the
size of the greedy initial clique. -/
theorem clisat_incumbent_invariant :
    ∀ (G : Graph) (timeO : Nat → Bool) (orac : SatOracle)
      (cacheO : Nat → Option (List (List Nat))), G.Sym →
      (∀ (fuel : Nat) (S K_hat : List Nat) (lbArg : Nat) (st : CState),
        IsCliqueList G K_hat →
        (∀ v ∈ S, ∀ u ∈ K_hat, G.adj u v = true) → Inv G st →
        Inv G (findMaxCliqueE timeO orac cacheO G fuel S K_hat lbArg st).1 ∧
          st.lb ≤
            (findMaxCliqueE timeO orac cacheO G fuel S K_hat lbArg st).1.lb) ∧
      (∀ fuel : Nat,
        Inv G (clisatSolveE timeO orac cacheO G fuel).1 ∧
          (greedyInitialSolution G).length ≤
            (clisatSolveE timeO orac cacheO G fuel).1.lb) := by
  intro G timeO orac cacheO hsym
  constructor
  · intro fuel S K lbArg st h1 h2 h3
    exact findMaxCliqueE_inv timeO orac cacheO G fuel S K lbArg st h1 h2 h3
  · intro fuel
    have hinv1 : Inv G
        { lb := (greedyInitialSolution G).length,
          maxClique := greedyInitialSolution G, nodesExplored := 0,
          satCalls := 0, prunedByBound := 0, filterCalls := 0,
          satcolCalls := 0, ticks := 0 } := by
      constructor
      · rfl
      · unfold greedyInitialSolution
        exact greedyScan_clique G hsym _ [] (by simp [IsCliqueList])
    have hloop := solveLoopE_inv (findMaxCliqueE timeO orac cacheO G fuel)
      timeO G (colorSort G)
      (fun S K lbArg st h1 h2 h3 =>
        findMaxCliqueE_inv timeO orac cacheO G fuel S K lbArg st h1 h2 h3)
      (List.range' (greedyInitialSolution G).length
        (G.nodes.length - (greedyInitialSolution G).length))
      { lb := (greedyInitialSolution G).length,
        maxClique := greedyInitialSolution G, nodesExplored := 0,
        satCalls := 0, prunedByBound := 0, filterCalls := 0,
        satcolCalls := 0, ticks := 0 } hinv1
    exact hloop

theorem clisat_incumbent_invariant_witness :
    (Inv gPath ((findMaxCliqueE (fun _ => false) (fun _ _ => Except.ok true)
        (fun _ => none) gPath 3 [1, 3] [2] 0 cst0).1) ∧
      cst0.lb ≤ ((findMaxCliqueE (fun _ => false) (fun _ _ => Except.ok true)
        (fun _ => none) gPath 3 [1, 3] [2] 0 cst0).1).lb) ∧
      Inv gPath ((clisatSolveE (fun _ => false) (fun _ _ => Except.ok true)
        (fun _ => none) gPath 3).1) :=
  ⟨(clisat_incumbent_invariant gPath (fun _ => false)
      (fun _ _ => Except.ok true) (fun _ => none)
      (mkGraph_sym [1, 2, 3] [(1, 2), (2, 3)])).1 3 [1, 3] [2] 0 cst0
      (by decide) (by decide) (by decide),
    ((clisat_incumbent_invariant gPath (fun _ => false)
      (fun _ _ => Except.ok true) (fun _ => none)
      (mkGraph_sym [1, 2, 3] [(1, 2), (2, 3)])).2 3).1⟩

end MCP
